import Mathlib

/-!
# openapi-json-inline: reference resolution and inlining

A shallow embedding of `src/main.go` (`isReference`, `resolveReference`,
`inlineReferences`) and the properties of the specification proved about it.

Modelling decisions.

* A decoded JSON value (`interface{}` as filled in by `json.Unmarshal`) is a `Node`.
  Numbers are carried as an uninterpreted payload: the program never inspects them.
* A Go `map[string]interface{}` is an association list whose keys are pairwise
  distinct (`Node.wf`); `mapGet` is the lookup `v, ok := m[k]`, `mapSet` is the
  assignment `m[k] = v`. `range` over a map visits the entries in list order.
* `inlineReferences` is recursive without a bound in the source, so the embedding
  takes a fuel argument: `Outcome.outOfFuel` stands for "has not returned yet".
* A failed unchecked type assertion is the outcome `Outcome.panic`.
* The file system and the JSON decoder are a parameter, `World`.
* A Go `error` built by `fmt.Errorf` is its message.
-/

namespace Inline

/-! ## Data model -/

/-- A decoded JSON value: what `json.Unmarshal` stores into an `interface{}`. -/
inductive Node where
  | null : Node
  | bool (b : Bool) : Node
  | num (n : Int) : Node
  | str (s : String) : Node
  | arr (items : List Node) : Node
  | obj (fields : List (String × Node)) : Node

/-- The Go type `map[string]interface{}`. -/
abbrev Obj := List (String × Node)

/-- The lookup `v, ok := m[key]`. -/
def mapGet : Obj → String → Option Node
  | [], _ => none
  | (k, v) :: rest, key => if k = key then some v else mapGet rest key

/-- The assignment `m[key] = value`: an existing entry is overwritten, a new key is added. -/
def mapSet : Obj → String → Node → Obj
  | [], key, value => [(key, value)]
  | (k, v) :: rest, key, value =>
    if k = key then (k, value) :: rest else (k, v) :: mapSet rest key value

/-- The keys of a map. -/
def mapKeys (m : Obj) : List String := m.map Prod.fst

/-- What a call of `inlineReferences` does: it returns a value, returns an error, panics,
or has not returned within the fuel given. -/
inductive Outcome where
  | ok (v : Node) : Outcome
  | err (msg : String) : Outcome
  | panic : Outcome
  | outOfFuel : Outcome

/-- The collaborators of `resolveReference`: `filepath.Join`, `ioutil.ReadFile` and
`json.Unmarshal`. A failure carries the text of the underlying error. -/
structure World where
  join : String → String → String
  readFile : String → Except String String
  unmarshal : String → Except String Node

/-! ## Strings -/

/-- The function `strings.HasPrefix`. -/
def hasPrefix (s pre : String) : Bool := pre.data.isPrefixOf s.data

/-- The function `strings.TrimPrefix`. -/
def trimPrefix (s pre : String) : String :=
  if hasPrefix s pre then String.mk (s.data.drop pre.data.length) else s

/-- Splitting a character list at every occurrence of `sep`; the empty list gives one
empty piece. -/
def splitChars (sep : Char) : List Char → List (List Char)
  | [] => [[]]
  | c :: cs =>
    if c = sep then [] :: splitChars sep cs
    else
      match splitChars sep cs with
      | [] => [[c]]
      | piece :: pieces => (c :: piece) :: pieces

/-- The function `strings.Split` for a separator of one character. -/
def split (s : String) (sep : Char) : List String :=
  (splitChars sep s.data).map String.mk

/-! ## The program -/

/-- The function `isReference`: the map has a `$ref` key. -/
def isReference (m : Obj) : Bool := (mapGet m "$ref").isSome

/-- The loop `for _, part := range parts` of `resolveReference`, with `current` as its
state; `return current, nil` when the parts are used up. -/
def walkParts (refPath : String) : Obj → List String → Except String Node
  | current, [] => .ok (.obj current)
  | current, part :: parts =>
    match mapGet current part with
    | some (.obj m) => walkParts refPath m parts
    | some v => .ok v
    | none => .error ("reference path not found: " ++ refPath)

/-- The function `resolveReference`. -/
def resolveReference (w : World) (refPath : String) (rootDoc : Obj) (baseDir : String) :
    Except String Node :=
  if hasPrefix refPath "#/" then
    walkParts refPath rootDoc (split (trimPrefix refPath "#/") '/')
  else
    let filePath := w.join baseDir refPath
    match w.readFile filePath with
    | .error e => .error ("failed to read referenced file " ++ filePath ++ ": " ++ e)
    | .ok content =>
      match w.unmarshal content with
      | .error e => .error ("failed to parse referenced file " ++ filePath ++ ": " ++ e)
      | .ok referencedDoc => .ok referencedDoc

/-- The loop `for key, value := range v` of `inlineReferences`, with `result` as its
state; `inline` is the recursive call. -/
def rangeMap (inline : Node → Outcome) : List (String × Node) → Obj → Outcome
  | [], result => .ok (.obj result)
  | (key, value) :: rest, result =>
    match inline value with
    | .ok inlined => rangeMap inline rest (mapSet result key inlined)
    | .err e => .err e
    | .panic => .panic
    | .outOfFuel => .outOfFuel

/-- The loop `for i, item := range v` of `inlineReferences`, with the index `i` and
`result` as its state; `inline` is the recursive call. -/
def rangeSlice (inline : Node → Outcome) : Nat → List Node → List Node → Outcome
  | _, [], result => .ok (.arr result)
  | i, item :: rest, result =>
    match inline item with
    | .ok inlined => rangeSlice inline (i + 1) rest (result.set i inlined)
    | .err e => .err e
    | .panic => .panic
    | .outOfFuel => .outOfFuel

/-- The function `inlineReferences`, with fuel for its recursion depth. -/
def inlineReferences (w : World) (fuel : Nat) (doc : Node) (rootDoc : Obj)
    (baseDir : String) : Outcome :=
  match fuel, doc with
  | 0, _ => .outOfFuel
  | fuel + 1, .obj v =>
    if isReference v then
      match mapGet v "$ref" with
      | some (.str refPath) =>
        match resolveReference w refPath rootDoc baseDir with
        | .error e => .err e
        | .ok resolved => inlineReferences w fuel resolved rootDoc baseDir
      | _ => .panic
    else
      rangeMap (fun value => inlineReferences w fuel value rootDoc baseDir) v []
  | fuel + 1, .arr v =>
    rangeSlice (fun item => inlineReferences w fuel item rootDoc baseDir) 0 v
      (List.replicate v.length .null)
  | _ + 1, v => .ok v

/-! ## Vocabulary of the specification -/

mutual
/-- Some mapping inside the node, at any depth, has a `$ref` key. -/
def Node.hasRef : Node → Bool
  | .arr items => hasRefItems items
  | .obj fields => hasRefFields fields
  | _ => false
/-- Some element of the sequence has a reference inside. -/
def hasRefItems : List Node → Bool
  | [] => false
  | x :: xs => x.hasRef || hasRefItems xs
/-- Some key is `$ref`, or some value has a reference inside. -/
def hasRefFields : List (String × Node) → Bool
  | [] => false
  | (k, v) :: rest => decide (k = "$ref") || v.hasRef || hasRefFields rest
end

mutual
/-- The keys of every mapping inside the node are pairwise distinct, as in a Go map. -/
def Node.wf : Node → Bool
  | .arr items => wfItems items
  | .obj fields => decide (fields.map Prod.fst).Nodup && wfFields fields
  | _ => true
/-- Every element of the sequence is well formed. -/
def wfItems : List Node → Bool
  | [] => true
  | x :: xs => x.wf && wfItems xs
/-- Every value of the mapping is well formed. -/
def wfFields : List (String × Node) → Bool
  | [] => true
  | (_, v) :: rest => v.wf && wfFields rest
end

mutual
/-- The nesting depth of a node: a scalar has depth 0. -/
def Node.depth : Node → Nat
  | .arr items => depthItems items + 1
  | .obj fields => depthFields fields + 1
  | _ => 0
/-- The largest depth among the elements. -/
def depthItems : List Node → Nat
  | [] => 0
  | x :: xs => max x.depth (depthItems xs)
/-- The largest depth among the values. -/
def depthFields : List (String × Node) → Nat
  | [] => 0
  | (_, v) :: rest => max v.depth (depthFields rest)
end

/-- The value stored at a path of keys: every value on the way is a mapping that has
the next key. -/
def descend : Node → List String → Option Node
  | v, [] => some v
  | .obj m, s :: rest =>
    match mapGet m s with
    | some v => descend v rest
    | none => none
  | _, _ :: _ => none

/-- The segments `s1, ..., sn` written `s1/.../sn`. -/
def joinSegs : List String → String
  | [] => ""
  | [s] => s
  | s :: rest => s ++ "/" ++ joinSegs rest

/-- The internal reference path `#/s1/.../sn`. -/
def refPathOf (segs : List String) : String := "#/" ++ joinSegs segs

/-- No segment contains the separator `/`. -/
def SlashFree (segs : List String) : Prop := ∀ s ∈ segs, '/' ∉ s.data

/-- The node is a mapping. -/
def Node.isObj : Node → Bool
  | .obj _ => true
  | _ => false

/-- The message contains the text. -/
def mentions (msg text : String) : Prop := text.data <:+: msg.data

/-- The call returns the value `r`: with some amount of fuel it is the outcome. -/
def InlinesTo (w : World) (rootDoc : Obj) (baseDir : String) (doc r : Node) : Prop :=
  ∃ fuel, inlineReferences w fuel doc rootDoc baseDir = .ok r

/-- The call returns the error `msg`: with some amount of fuel it is the outcome. -/
def FailsWith (w : World) (rootDoc : Obj) (baseDir : String) (doc : Node) (msg : String) :
    Prop :=
  ∃ fuel, inlineReferences w fuel doc rootDoc baseDir = .err msg

/-- The call returns: a value or an error. -/
def Returns (w : World) (rootDoc : Obj) (baseDir : String) (doc : Node) : Prop :=
  (∃ r, InlinesTo w rootDoc baseDir doc r) ∨ ∃ msg, FailsWith w rootDoc baseDir doc msg

/-- The call terminates: with some amount of fuel it has an outcome, which is a value, an
error or a panic. -/
def Terminates (w : World) (rootDoc : Obj) (baseDir : String) (doc : Node) : Prop :=
  ∃ fuel, inlineReferences w fuel doc rootDoc baseDir ≠ .outOfFuel

/-- The `$ref` key of the mapping, when it has one, holds a string that starts with `#/`. -/
def refIsInternal (m : Obj) : Bool :=
  match mapGet m "$ref" with
  | none => true
  | some (.str p) => hasPrefix p "#/"
  | some _ => false

mutual
/-- Every reference node inside the node, at any depth, carries a string that starts
with `#/`. -/
def Node.refsInternal : Node → Bool
  | .arr items => refsInternalItems items
  | .obj fields => refIsInternal fields && refsInternalFields fields
  | _ => true
/-- Every element of the sequence has internal references only. -/
def refsInternalItems : List Node → Bool
  | [] => true
  | x :: xs => x.refsInternal && refsInternalItems xs
/-- Every value of the mapping has internal references only. -/
def refsInternalFields : List (String × Node) → Bool
  | [] => true
  | (_, v) :: rest => v.refsInternal && refsInternalFields rest
end

/-- The outcome is a value without references or a `reference path not found` error. -/
def Outcome.settled : Outcome → Prop
  | .ok out => out.hasRef = false
  | .err msg => ∃ p : String, msg = "reference path not found: " ++ p
  | _ => False

/-! ## Examples of the specification -/

/-- The document `{"a": {"b": 5}, "c": {"$ref": "#/a/b"}}`. -/
def exInternal : Obj :=
  [("a", .obj [("b", .num 5)]), ("c", .obj [("$ref", .str "#/a/b")])]

/-- The document `{"x": {"$ref": "#/a", "description": "ignored"}, "a": 1}`. -/
def exSibling : Obj :=
  [("x", .obj [("$ref", .str "#/a"), ("description", .str "ignored")]), ("a", .num 1)]

/-- The root `{"a": 1, "b": 2}`. -/
def exPair : Obj := [("a", .num 1), ("b", .num 2)]

/-- The sequence `[{"$ref": "#/a"}, {"$ref": "#/b"}]`. -/
def exSeq : Node :=
  .arr [.obj [("$ref", .str "#/a")], .obj [("$ref", .str "#/b")]]

/-- A world without files: every read fails. -/
def noFiles : World where
  join := fun dir name => dir ++ "/" ++ name
  readFile := fun _ => .error "no such file or directory"
  unmarshal := fun _ => .error "unexpected end of JSON input"

/-- The text of the file `ext.json`: `{"inner": 9, "y": {"$ref": "#/inner"}}`. -/
def extText : String := "\x7b\"inner\": 9, \"y\": \x7b\"$ref\": \"#/inner\"\x7d\x7d"

/-- The document decoded from `ext.json`. -/
def extDoc : Node := .obj [("inner", .num 9), ("y", .obj [("$ref", .str "#/inner")])]

/-- The text of the file `shared.json`: `{"v": 1}`. -/
def sharedText : String := "\x7b\"v\": 1\x7d"

/-- A world with the files `specs/ext.json`, `specs/shared.json` and the truncated
`specs/broken.json`; a decoder that knows these texts. -/
def exFiles : World where
  join := fun dir name => dir ++ "/" ++ name
  readFile := fun path =>
    if path = "specs/ext.json" then .ok extText
    else if path = "specs/shared.json" then .ok sharedText
    else if path = "specs/broken.json" then .ok "\x7b\"v\": "
    else .error ("open " ++ path ++ ": no such file or directory")
  unmarshal := fun text =>
    if text = extText then .ok extDoc
    else if text = sharedText then .ok (.obj [("v", .num 1)])
    else .error "unexpected end of JSON input"

/-- The root `{"inner": 7, "x": {"$ref": "ext.json"}}`. -/
def exNested : Obj := [("inner", .num 7), ("x", .obj [("$ref", .str "ext.json")])]

/-- The root `{"$ref": "shared.json"}`. -/
def exShared : Obj := [("$ref", .str "shared.json")]

/-- The root `{"a": {"$ref": "#/b"}, "b": {"$ref": "#/a"}}`. -/
def exCycle : Obj :=
  [("a", .obj [("$ref", .str "#/b")]), ("b", .obj [("$ref", .str "#/a")])]

/-- The root `{"a": {"$ref": "#/a"}}`. -/
def exSelf : Obj := [("a", .obj [("$ref", .str "#/a")])]

/-- The elements `{"$ref": 5}` and `{"$ref": "#/missing"}`. -/
def exMalformedItems : List Node :=
  [.obj [("$ref", .num 5)], .obj [("$ref", .str "#/missing")]]

/-- The root `{"items": [{"$ref": 5}, {"$ref": "#/missing"}]}`. -/
def exMalformedDoc : Obj := [("items", .arr exMalformedItems)]

/-! ## Maps -/

theorem mapGet_eq_none_iff (m : Obj) (key : String) :
    mapGet m key = none ↔ key ∉ mapKeys m := by
  induction m with
  | nil => simp [mapGet, mapKeys]
  | cons kv rest ih =>
    obtain ⟨k, v⟩ := kv
    by_cases hk : k = key
    · simp [mapGet, mapKeys, hk]
    · have ih2 : mapGet rest key = none ↔ key ∉ List.map Prod.fst rest := ih
      simp [mapGet, mapKeys, hk, ih2, Ne.symm hk]

theorem mapSet_of_not_mem (m : Obj) (key : String) (value : Node)
    (h : key ∉ mapKeys m) : mapSet m key value = m ++ [(key, value)] := by
  induction m with
  | nil => simp [mapSet]
  | cons kv rest ih =>
    obtain ⟨k, v⟩ := kv
    simp only [mapKeys, List.map_cons, List.mem_cons, not_or] at h
    have hk : ¬ k = key := fun e => h.1 e.symm
    simp [mapSet, hk, ih h.2]

theorem mapKeys_mapSet_subset (m : Obj) (key : String) (value : Node) (k : String)
    (h : k ∈ mapKeys (mapSet m key value)) : k = key ∨ k ∈ mapKeys m := by
  induction m with
  | nil => simpa [mapSet, mapKeys] using h
  | cons kv rest ih =>
    obtain ⟨k0, v0⟩ := kv
    by_cases hk : k0 = key
    · simp [mapSet, mapKeys, hk] at h ⊢
      exact h
    · simp only [mapSet, hk, if_false, mapKeys, List.map_cons, List.mem_cons] at h ⊢
      rcases h with h | h
      · exact Or.inr (Or.inl h)
      · rcases ih h with h2 | h2
        · exact Or.inl h2
        · exact Or.inr (Or.inr h2)

/-! ## Fuel -/

theorem rangeMap_mono (f g : Node → Outcome)
    (h : ∀ x, f x ≠ .outOfFuel → g x = f x) (xs : List (String × Node)) (acc : Obj)
    (hr : rangeMap f xs acc ≠ .outOfFuel) : rangeMap g xs acc = rangeMap f xs acc := by
  induction xs generalizing acc with
  | nil => simp [rangeMap]
  | cons kv rest ih =>
    obtain ⟨k, v⟩ := kv
    simp only [rangeMap] at hr ⊢
    cases hf : f v with
    | ok r =>
      rw [hf] at hr
      rw [h v (by simp [hf]), hf]
      exact ih _ hr
    | err e => rw [h v (by simp [hf]), hf]
    | panic => rw [h v (by simp [hf]), hf]
    | outOfFuel => simp [hf] at hr

theorem rangeSlice_mono (f g : Node → Outcome)
    (h : ∀ x, f x ≠ .outOfFuel → g x = f x) (xs : List Node) (i : Nat) (acc : List Node)
    (hr : rangeSlice f i xs acc ≠ .outOfFuel) :
    rangeSlice g i xs acc = rangeSlice f i xs acc := by
  induction xs generalizing i acc with
  | nil => simp [rangeSlice]
  | cons v rest ih =>
    simp only [rangeSlice] at hr ⊢
    cases hf : f v with
    | ok r =>
      rw [hf] at hr
      rw [h v (by simp [hf]), hf]
      exact ih _ _ hr
    | err e => rw [h v (by simp [hf]), hf]
    | panic => rw [h v (by simp [hf]), hf]
    | outOfFuel => simp [hf] at hr

theorem inlineReferences_succ (w : World) (rootDoc : Obj) (baseDir : String) (fuel : Nat) :
    ∀ doc, inlineReferences w fuel doc rootDoc baseDir ≠ .outOfFuel →
      inlineReferences w (fuel + 1) doc rootDoc baseDir
        = inlineReferences w fuel doc rootDoc baseDir := by
  induction fuel with
  | zero => intro doc h; simp [inlineReferences] at h
  | succ n ih =>
    intro doc h
    cases doc with
    | null => simp [inlineReferences]
    | bool b => simp [inlineReferences]
    | num x => simp [inlineReferences]
    | str s => simp [inlineReferences]
    | arr items =>
      rw [inlineReferences] at h
      rw [inlineReferences, inlineReferences]
      exact rangeSlice_mono _ _ (fun x hx => ih x hx) _ _ _ h
    | obj fields =>
      rw [inlineReferences] at h
      rw [inlineReferences, inlineReferences]
      by_cases hr : isReference fields = true
      · simp only [hr, if_true] at h ⊢
        split
        · rename_i refPath hget
          simp only [hget] at h
          cases hres : resolveReference w refPath rootDoc baseDir with
          | error e => simp
          | ok resolved =>
            simp only [hres] at h ⊢
            exact ih _ h
        · rfl
      · simp only [hr] at h ⊢
        exact rangeMap_mono _ _ (fun x hx => ih x hx) _ _ h

theorem inlineReferences_mono (w : World) (rootDoc : Obj) (baseDir : String)
    (fuel fuel2 : Nat) (hle : fuel ≤ fuel2) (doc : Node)
    (h : inlineReferences w fuel doc rootDoc baseDir ≠ .outOfFuel) :
    inlineReferences w fuel2 doc rootDoc baseDir
      = inlineReferences w fuel doc rootDoc baseDir := by
  induction hle with
  | refl => rfl
  | step hm ih =>
    rw [inlineReferences_succ _ _ _ _ _ (by rw [ih]; exact h), ih]


/-! ## Residual references -/

theorem hasRefFields_eq_false_iff (m : Obj) :
    hasRefFields m = false ↔ "$ref" ∉ mapKeys m ∧ ∀ kv ∈ m, kv.2.hasRef = false := by
  induction m with
  | nil => simp [hasRefFields, mapKeys]
  | cons kv rest ih =>
    obtain ⟨k, v⟩ := kv
    have ih2 : hasRefFields rest = false ↔
        "$ref" ∉ List.map Prod.fst rest ∧ ∀ kv ∈ rest, kv.2.hasRef = false := ih
    simp only [hasRefFields, Bool.or_eq_false_iff, decide_eq_false_iff_not, ih2, mapKeys,
      List.map_cons, List.mem_cons, not_or, forall_eq_or_imp]
    constructor
    · rintro ⟨⟨h1, h2⟩, h3, h4⟩
      exact ⟨⟨fun e => h1 e.symm, h3⟩, h2, h4⟩
    · rintro ⟨⟨h1, h3⟩, h2, h4⟩
      exact ⟨⟨fun e => h1 e.symm, h2⟩, h3, h4⟩

theorem hasRefItems_eq_false_iff (l : List Node) :
    hasRefItems l = false ↔ ∀ x ∈ l, x.hasRef = false := by
  induction l with
  | nil => simp [hasRefItems]
  | cons x xs ih => simp [hasRefItems, ih]

theorem mem_mapSet (m : Obj) (key : String) (value : Node) (kv : String × Node)
    (h : kv ∈ mapSet m key value) : kv = (key, value) ∨ kv ∈ m := by
  induction m with
  | nil => simpa [mapSet] using h
  | cons kv0 rest ih =>
    obtain ⟨k0, v0⟩ := kv0
    by_cases hk : k0 = key
    · simp only [mapSet, hk, if_true, List.mem_cons] at h ⊢
      rcases h with h | h
      · exact Or.inl h
      · exact Or.inr (Or.inr h)
    · simp only [mapSet, hk, if_false, List.mem_cons] at h ⊢
      rcases h with h | h
      · exact Or.inr (Or.inl h)
      · rcases ih h with h2 | h2
        · exact Or.inl h2
        · exact Or.inr (Or.inr h2)

theorem hasRefFields_mapSet (m : Obj) (key : String) (value : Node)
    (hm : hasRefFields m = false) (hk : key ≠ "$ref") (hv : value.hasRef = false) :
    hasRefFields (mapSet m key value) = false := by
  rw [hasRefFields_eq_false_iff] at hm ⊢
  constructor
  · intro hmem
    rcases mapKeys_mapSet_subset _ _ _ _ hmem with h | h
    · exact hk h.symm
    · exact hm.1 h
  · intro kv hmem
    rcases mem_mapSet _ _ _ _ hmem with h | h
    · rw [h]; exact hv
    · exact hm.2 kv h

theorem rangeMap_noRef (f : Node → Outcome) (xs : List (String × Node))
    (hkeys : "$ref" ∉ mapKeys xs)
    (hf : ∀ kv ∈ xs, ∀ r, f kv.2 = .ok r → r.hasRef = false) :
    ∀ (acc : Obj) (out : Node), hasRefFields acc = false →
      rangeMap f xs acc = .ok out → out.hasRef = false := by
  induction xs with
  | nil =>
    intro acc out hacc h
    simp only [rangeMap, Outcome.ok.injEq] at h
    rw [← h]; simpa [Node.hasRef] using hacc
  | cons kv rest ih =>
    obtain ⟨k, v⟩ := kv
    intro acc out hacc h
    simp only [mapKeys, List.map_cons, List.mem_cons, not_or] at hkeys
    simp only [rangeMap] at h
    cases hv : f v with
    | ok r =>
      rw [hv] at h
      refine ih hkeys.2 (fun kv hkv => hf kv (List.mem_cons_of_mem _ hkv)) _ out ?_ h
      exact hasRefFields_mapSet _ _ _ hacc (fun e => hkeys.1 e.symm)
        (hf (k, v) (List.mem_cons_self _ _) r hv)
    | err e => simp [hv] at h
    | panic => simp [hv] at h
    | outOfFuel => simp [hv] at h

theorem rangeSlice_noRef (f : Node → Outcome) (xs : List Node)
    (hf : ∀ x ∈ xs, ∀ r, f x = .ok r → r.hasRef = false) :
    ∀ (i : Nat) (acc : List Node) (out : Node), hasRefItems acc = false →
      rangeSlice f i xs acc = .ok out → out.hasRef = false := by
  induction xs with
  | nil =>
    intro i acc out hacc h
    simp only [rangeSlice, Outcome.ok.injEq] at h
    rw [← h]; simpa [Node.hasRef] using hacc
  | cons v rest ih =>
    intro i acc out hacc h
    simp only [rangeSlice] at h
    cases hv : f v with
    | ok r =>
      rw [hv] at h
      refine ih (fun x hx => hf x (List.mem_cons_of_mem _ hx)) _ _ out ?_ h
      rw [hasRefItems_eq_false_iff] at hacc ⊢
      intro x hx
      rcases List.mem_or_eq_of_mem_set hx with h1 | h1
      · exact hacc x h1
      · rw [h1]; exact hf v (List.mem_cons_self _ _) r hv
    | err e => simp [hv] at h
    | panic => simp [hv] at h
    | outOfFuel => simp [hv] at h

theorem inlineReferences_noRef (w : World) (rootDoc : Obj) (baseDir : String) (fuel : Nat) :
    ∀ (doc out : Node), inlineReferences w fuel doc rootDoc baseDir = .ok out →
      out.hasRef = false := by
  induction fuel with
  | zero => intro doc out h; simp [inlineReferences] at h
  | succ n ih =>
    intro doc out h
    cases doc with
    | null => simp [inlineReferences] at h; rw [← h]; rfl
    | bool b => simp [inlineReferences] at h; rw [← h]; rfl
    | num x => simp [inlineReferences] at h; rw [← h]; rfl
    | str s => simp [inlineReferences] at h; rw [← h]; rfl
    | arr items =>
      rw [inlineReferences] at h
      refine rangeSlice_noRef _ items (fun x _ r hr => ih x r hr) 0 _ out ?_ h
      rw [hasRefItems_eq_false_iff]
      intro x hx
      rw [(List.mem_replicate.1 hx).2]; rfl
    | obj fields =>
      rw [inlineReferences] at h
      by_cases hr : isReference fields = true
      · simp only [hr, if_true] at h
        split at h
        · rename_i refPath hget
          cases hres : resolveReference w refPath rootDoc baseDir with
          | error e => simp [hres] at h
          | ok resolved =>
            simp only [hres] at h
            exact ih _ _ h
        · simp at h
      · simp only [hr] at h
        refine rangeMap_noRef _ fields ?_ (fun kv _ r hr => ih kv.2 r hr) [] out rfl h
        rw [← mapGet_eq_none_iff]
        simpa [isReference] using hr


/-! ## The loops on children that all succeed -/

theorem rangeMap_ok_of_forall₂ (f : Node → Outcome) (xs : List (String × Node))
    (rs : List Node) (h : List.Forall₂ (fun kv r => f kv.2 = .ok r) xs rs) :
    ∀ acc : Obj, (mapKeys (acc ++ xs)).Nodup →
      rangeMap f xs acc
        = .ok (.obj (acc ++ List.zipWith (fun kv r => (kv.1, r)) xs rs)) := by
  induction h with
  | nil => intro acc _; simp [rangeMap]
  | @cons kv r rest rs hkv _ ih =>
    obtain ⟨k, v⟩ := kv
    intro acc hnd
    have hk : k ∉ mapKeys acc := by
      simp only [mapKeys, List.map_append, List.map_cons] at hnd
      have h2 := (List.nodup_append.1 hnd).2.2
      intro hmem
      exact h2 hmem (List.mem_cons_self _ _)
    simp only [rangeMap]
    rw [hkv]
    simp only [mapSet_of_not_mem _ _ _ hk]
    rw [ih (acc ++ [(k, r)]) (by simpa [mapKeys] using hnd)]
    simp

theorem rangeSlice_ok_of_forall₂ (f : Node → Outcome) (xs rs : List Node)
    (h : List.Forall₂ (fun x r => f x = .ok r) xs rs) :
    ∀ done : List Node,
      rangeSlice f done.length xs (done ++ List.replicate xs.length .null)
        = .ok (.arr (done ++ rs)) := by
  induction h with
  | nil => intro done; simp [rangeSlice]
  | @cons x r rest rs hx _ ih =>
    intro done
    simp only [rangeSlice]
    rw [hx]
    have hset : (done ++ List.replicate (x :: rest).length Node.null).set done.length r
        = (done ++ [r]) ++ List.replicate rest.length Node.null := by
      rw [List.set_append_right _ _ (le_refl _)]
      simp [List.replicate_succ]
    simp only [hset]
    have := ih (done ++ [r])
    simp only [List.length_append, List.length_singleton] at this
    rw [this]
    simp

theorem exists_forall₂_of_forall_mem {α β : Type} (P : α → β → Prop) (l : List α)
    (h : ∀ x ∈ l, ∃ r, P x r) : ∃ rs, List.Forall₂ P l rs := by
  induction l with
  | nil => exact ⟨[], List.Forall₂.nil⟩
  | cons x xs ih =>
    obtain ⟨r, hr⟩ := h x (List.mem_cons_self _ _)
    obtain ⟨rs, hrs⟩ := ih (fun y hy => h y (List.mem_cons_of_mem _ hy))
    exact ⟨r :: rs, List.Forall₂.cons hr hrs⟩

/-! ## Depth and well-formedness -/

theorem depth_le_depthItems (l : List Node) : ∀ x ∈ l, x.depth ≤ depthItems l := by
  induction l with
  | nil => simp
  | cons y ys ih =>
    intro x hx
    simp only [depthItems]
    rcases List.mem_cons.1 hx with h | h
    · rw [h]; exact le_max_left _ _
    · exact le_trans (ih x h) (le_max_right _ _)

theorem depth_le_depthFields (m : List (String × Node)) :
    ∀ kv ∈ m, kv.2.depth ≤ depthFields m := by
  induction m with
  | nil => simp
  | cons y ys ih =>
    obtain ⟨k, v⟩ := y
    intro x hx
    simp only [depthFields]
    rcases List.mem_cons.1 hx with h | h
    · rw [h]; exact le_max_left _ _
    · exact le_trans (ih x h) (le_max_right _ _)

theorem wfItems_iff (l : List Node) : wfItems l = true ↔ ∀ x ∈ l, x.wf = true := by
  induction l with
  | nil => simp [wfItems]
  | cons x xs ih => simp [wfItems, ih]

theorem wfFields_iff (m : List (String × Node)) :
    wfFields m = true ↔ ∀ kv ∈ m, kv.2.wf = true := by
  induction m with
  | nil => simp [wfFields]
  | cons kv rest ih =>
    obtain ⟨k, v⟩ := kv
    simp [wfFields, ih]

theorem zipWith_fst_snd (m : List (String × Node)) :
    List.zipWith (fun kv r => (kv.1, r)) m (m.map Prod.snd) = m := by
  induction m with
  | nil => rfl
  | cons kv rest ih => simp [ih]

theorem inlineReferences_id (w : World) (rootDoc : Obj) (baseDir : String) (fuel : Nat) :
    ∀ doc : Node, doc.depth < fuel → doc.hasRef = false → doc.wf = true →
      inlineReferences w fuel doc rootDoc baseDir = .ok doc := by
  induction fuel with
  | zero => intro doc h; omega
  | succ n ih =>
    intro doc hd hr hw
    cases doc with
    | null => simp [inlineReferences]
    | bool b => simp [inlineReferences]
    | num x => simp [inlineReferences]
    | str s => simp [inlineReferences]
    | arr items =>
      rw [inlineReferences]
      simp only [Node.depth, Node.hasRef, Node.wf] at hd hr hw
      rw [hasRefItems_eq_false_iff] at hr
      rw [wfItems_iff] at hw
      have hall : List.Forall₂
          (fun x r => inlineReferences w n x rootDoc baseDir = .ok r) items items := by
        rw [List.forall₂_same]
        intro x hx
        exact ih x (by have := depth_le_depthItems items x hx; omega) (hr x hx) (hw x hx)
      have := rangeSlice_ok_of_forall₂ (fun item => inlineReferences w n item rootDoc baseDir)
        items items hall []
      simpa using this
    | obj fields =>
      rw [inlineReferences]
      simp only [Node.depth, Node.hasRef, Node.wf, Bool.and_eq_true, decide_eq_true_eq]
        at hd hr hw
      rw [hasRefFields_eq_false_iff] at hr
      rw [wfFields_iff] at hw
      have hnr : isReference fields = false := by
        simp [isReference, (mapGet_eq_none_iff _ _).2 hr.1]
      simp only [hnr]
      have hall : List.Forall₂
          (fun (kv : String × Node) r => inlineReferences w n kv.2 rootDoc baseDir = .ok r)
          fields (fields.map Prod.snd) := by
        rw [List.forall₂_map_right_iff, List.forall₂_same]
        intro kv hkv
        exact ih kv.2 (by have := depth_le_depthFields fields kv hkv; omega)
          (hr.2 kv hkv) (hw.2 kv hkv)
      have := rangeMap_ok_of_forall₂ (fun value => inlineReferences w n value rootDoc baseDir)
        fields _ hall [] (by simpa [mapKeys] using hw.1)
      rw [zipWith_fst_snd] at this
      simpa using this


/-! ## Reference paths -/

theorem splitChars_of_not_mem (sep : Char) (p : List Char) (h : sep ∉ p) :
    splitChars sep p = [p] := by
  induction p with
  | nil => rfl
  | cons c cs ih =>
    simp only [List.mem_cons, not_or] at h
    have hc : ¬ c = sep := fun e => h.1 e.symm
    simp [splitChars, hc, ih h.2]

theorem splitChars_append_sep (sep : Char) (p rest : List Char) (h : sep ∉ p) :
    splitChars sep (p ++ sep :: rest) = p :: splitChars sep rest := by
  induction p with
  | nil => simp [splitChars]
  | cons c cs ih =>
    simp only [List.mem_cons, not_or] at h
    have hc : ¬ c = sep := fun e => h.1 e.symm
    simp [splitChars, hc, ih h.2]

theorem split_joinSegs (segs : List String) (hne : segs ≠ []) (hs : SlashFree segs) :
    split (joinSegs segs) '/' = segs := by
  induction segs with
  | nil => exact absurd rfl hne
  | cons s rest ih =>
    cases rest with
    | nil =>
      simp only [joinSegs, split]
      rw [splitChars_of_not_mem _ _ (hs s (List.mem_cons_self _ _))]
      rfl
    | cons s2 rest2 =>
      have ih2 := ih (by simp) (fun x hx => hs x (List.mem_cons_of_mem _ hx))
      simp only [split] at ih2
      simp only [joinSegs, split, String.data_append]
      rw [List.append_assoc, List.singleton_append,
        splitChars_append_sep _ _ _ (hs s (List.mem_cons_self _ _))]
      simp only [List.map_cons, ih2]

theorem hasPrefix_refPathOf (segs : List String) : hasPrefix (refPathOf segs) "#/" = true := by
  have h : "#/".data = ['#', '/'] := rfl
  simp [hasPrefix, refPathOf, String.data_append, h, List.isPrefixOf]

theorem trimPrefix_refPathOf (segs : List String) :
    trimPrefix (refPathOf segs) "#/" = joinSegs segs := by
  have h : "#/".data = ['#', '/'] := rfl
  rw [trimPrefix, hasPrefix_refPathOf]
  simp [refPathOf, String.data_append, h]

theorem resolveReference_refPathOf (w : World) (rootDoc : Obj) (baseDir : String)
    (segs : List String) (hne : segs ≠ []) (hs : SlashFree segs) :
    resolveReference w (refPathOf segs) rootDoc baseDir
      = walkParts (refPathOf segs) rootDoc segs := by
  rw [resolveReference, hasPrefix_refPathOf, trimPrefix_refPathOf, split_joinSegs _ hne hs]
  rfl

/-! ## The walk along the parts -/

theorem descend_of_not_isObj (v out : Node) (rest : List String) (hv : v.isObj = false)
    (h : descend v rest = some out) : rest = [] ∧ out = v := by
  cases rest with
  | nil => simp only [descend, Option.some.injEq] at h; exact ⟨rfl, h.symm⟩
  | cons s ss => cases v <;> simp [descend, Node.isObj] at h hv

theorem walkParts_of_descend (refPath : String) (segs : List String) :
    ∀ (root : Obj) (v : Node), descend (.obj root) segs = some v →
      walkParts refPath root segs = .ok v := by
  induction segs with
  | nil => intro root v h; simp only [descend, Option.some.injEq] at h; simp [walkParts, h]
  | cons s rest ih =>
    intro root v h
    simp only [descend] at h
    cases hget : mapGet root s with
    | none => simp [hget] at h
    | some x =>
      simp only [hget] at h
      cases hx : x.isObj with
      | true =>
        cases x <;> simp [Node.isObj] at hx
        simp only [walkParts, hget]
        exact ih _ _ h
      | false =>
        obtain ⟨_, hout⟩ := descend_of_not_isObj x v rest hx h
        cases x <;> simp [Node.isObj] at hx <;> simp [walkParts, hget, hout]

theorem walkParts_leaf (refPath : String) (pre post : List String) :
    ∀ (root : Obj) (v : Node), descend (.obj root) pre = some v → v.isObj = false →
      walkParts refPath root (pre ++ post) = .ok v := by
  induction pre with
  | nil =>
    intro root v h hv
    simp only [descend, Option.some.injEq] at h
    rw [← h] at hv
    simp [Node.isObj] at hv
  | cons s rest ih =>
    intro root v h hv
    simp only [descend] at h
    cases hget : mapGet root s with
    | none => simp [hget] at h
    | some x =>
      simp only [hget] at h
      cases hx : x.isObj with
      | true =>
        cases x <;> simp [Node.isObj] at hx
        simp only [List.cons_append, walkParts, hget]
        exact ih _ _ h hv
      | false =>
        obtain ⟨_, hout⟩ := descend_of_not_isObj x v rest hx h
        cases x <;> simp [Node.isObj] at hx <;> simp [walkParts, hget, hout]

theorem walkParts_missing (refPath : String) (pre : List String) (s : String)
    (post : List String) :
    ∀ (root m : Obj), descend (.obj root) pre = some (.obj m) → mapGet m s = none →
      walkParts refPath root (pre ++ s :: post)
        = .error ("reference path not found: " ++ refPath) := by
  induction pre with
  | nil =>
    intro root m h hm
    simp only [descend, Option.some.injEq, Node.obj.injEq] at h
    simp [walkParts, h, hm]
  | cons s0 rest ih =>
    intro root m h hm
    simp only [descend] at h
    cases hget : mapGet root s0 with
    | none => simp [hget] at h
    | some x =>
      simp only [hget] at h
      cases hx : x.isObj with
      | true =>
        cases x <;> simp [Node.isObj] at hx
        simp only [List.cons_append, walkParts, hget]
        exact ih _ _ h hm
      | false =>
        obtain ⟨_, hout⟩ := descend_of_not_isObj x _ rest hx h
        rw [← hout] at hx
        simp [Node.isObj] at hx


/-! ## Returned values -/

theorem inlineReferences_ok_of_le (w : World) (rootDoc : Obj) (baseDir : String)
    (fuel fuel2 : Nat) (doc r : Node) (hle : fuel ≤ fuel2)
    (h : inlineReferences w fuel doc rootDoc baseDir = .ok r) :
    inlineReferences w fuel2 doc rootDoc baseDir = .ok r := by
  rw [inlineReferences_mono w rootDoc baseDir fuel fuel2 hle doc (by simp [h]), h]

theorem InlinesTo_unique (w : World) (rootDoc : Obj) (baseDir : String) (doc r1 r2 : Node)
    (h1 : InlinesTo w rootDoc baseDir doc r1) (h2 : InlinesTo w rootDoc baseDir doc r2) :
    r1 = r2 := by
  obtain ⟨f1, e1⟩ := h1
  obtain ⟨f2, e2⟩ := h2
  have a := inlineReferences_ok_of_le w rootDoc baseDir f1 (max f1 f2) doc r1
    (le_max_left _ _) e1
  have b := inlineReferences_ok_of_le w rootDoc baseDir f2 (max f1 f2) doc r2
    (le_max_right _ _) e2
  rw [a] at b
  exact Outcome.ok.inj b

theorem exists_common_fuel (w : World) (rootDoc : Obj) (baseDir : String) (l : List Node)
    (h : ∀ x ∈ l, ∃ r, InlinesTo w rootDoc baseDir x r) :
    ∃ fuel, ∀ x ∈ l, ∃ r, inlineReferences w fuel x rootDoc baseDir = .ok r := by
  induction l with
  | nil => exact ⟨0, by simp⟩
  | cons y ys ih =>
    obtain ⟨f1, hf1⟩ := ih (fun x hx => h x (List.mem_cons_of_mem _ hx))
    obtain ⟨r, f2, hf2⟩ := h y (List.mem_cons_self _ _)
    refine ⟨max f1 f2, ?_⟩
    intro x hx
    rcases List.mem_cons.1 hx with e | hmem
    · exact ⟨r, by
        rw [e]
        exact inlineReferences_ok_of_le w rootDoc baseDir f2 _ y r (le_max_right _ _) hf2⟩
    · obtain ⟨r2, hr2⟩ := hf1 x hmem
      exact ⟨r2, inlineReferences_ok_of_le w rootDoc baseDir f1 _ x r2 (le_max_left _ _) hr2⟩

theorem mentions_append (a text : String) : mentions (a ++ text) text := by
  unfold mentions
  rw [String.data_append]
  exact (List.suffix_append a.data text.data).isInfix

/-! ## Lookups in a rebuilt mapping -/

theorem mapGet_of_mem (m : Obj) (hnd : (mapKeys m).Nodup) :
    ∀ kv ∈ m, mapGet m kv.1 = some kv.2 := by
  induction m with
  | nil => simp
  | cons kv0 rest ih =>
    obtain ⟨k0, v0⟩ := kv0
    simp only [mapKeys, List.map_cons, List.nodup_cons] at hnd
    intro kv hkv
    rcases List.mem_cons.1 hkv with e | hmem
    · rw [e]; simp [mapGet]
    · have hne : ¬ k0 = kv.1 := by
        intro e
        exact hnd.1 (e ▸ List.mem_map_of_mem Prod.fst hmem)
      simp only [mapGet, hne, if_false]
      exact ih hnd.2 kv hmem

theorem mem_of_mapGet (m : Obj) (k : String) (v : Node) (h : mapGet m k = some v) :
    (k, v) ∈ m := by
  induction m with
  | nil => simp [mapGet] at h
  | cons kv0 rest ih =>
    obtain ⟨k0, v0⟩ := kv0
    by_cases hk : k0 = k
    · simp only [mapGet, hk, if_true, Option.some.injEq] at h
      rw [hk, h]; exact List.mem_cons_self _ _
    · simp only [mapGet, hk, if_false] at h
      exact List.mem_cons_of_mem _ (ih h)

theorem mapKeys_zipWith (P : String × Node → Node → Prop) (m : List (String × Node))
    (rs : List Node) (h : List.Forall₂ P m rs) :
    mapKeys (List.zipWith (fun kv r => (kv.1, r)) m rs) = mapKeys m := by
  induction h with
  | nil => rfl
  | @cons kv r rest rs _ _ ih =>
    simp only [mapKeys, List.zipWith_cons_cons, List.map_cons] at ih ⊢
    rw [ih]

theorem mapGet_zipWith (P : Node → Node → Prop) (m : List (String × Node))
    (rs : List Node) (h : List.Forall₂ (fun kv r => P kv.2 r) m rs) (k : String) (v : Node)
    (hget : mapGet m k = some v) :
    ∃ r, mapGet (List.zipWith (fun kv r => (kv.1, r)) m rs) k = some r ∧ P v r := by
  induction h with
  | nil => simp [mapGet] at hget
  | @cons kv r rest rs hkv _ ih =>
    obtain ⟨k0, v0⟩ := kv
    by_cases hk : k0 = k
    · simp only [mapGet, hk, if_true, Option.some.injEq] at hget
      refine ⟨r, by simp [mapGet, hk], ?_⟩
      rw [← hget]; exact hkv
    · simp only [mapGet, hk, if_false] at hget
      obtain ⟨r2, h1, h2⟩ := ih hget
      exact ⟨r2, by simpa [mapGet, hk] using h1, h2⟩

/-! ## Outcomes of a parent with returning children -/

theorem inlineReferences_outcome_unique (w : World) (rootDoc : Obj) (baseDir : String)
    (doc : Node) (f1 f2 : Nat) (o1 o2 : Outcome)
    (h1 : inlineReferences w f1 doc rootDoc baseDir = o1) (n1 : o1 ≠ .outOfFuel)
    (h2 : inlineReferences w f2 doc rootDoc baseDir = o2) (n2 : o2 ≠ .outOfFuel) :
    o1 = o2 := by
  have a := inlineReferences_mono w rootDoc baseDir f1 (max f1 f2) (le_max_left _ _) doc
    (by rw [h1]; exact n1)
  have b := inlineReferences_mono w rootDoc baseDir f2 (max f1 f2) (le_max_right _ _) doc
    (by rw [h2]; exact n2)
  rw [← h1, ← h2, ← a, ← b]

theorem exists_common_fuel_returns (w : World) (rootDoc : Obj) (baseDir : String)
    (l : List Node) (h : ∀ x ∈ l, Returns w rootDoc baseDir x) :
    ∃ fuel, ∀ x ∈ l, (∃ r, inlineReferences w fuel x rootDoc baseDir = .ok r) ∨
      ∃ msg, inlineReferences w fuel x rootDoc baseDir = .err msg := by
  induction l with
  | nil => exact ⟨0, by simp⟩
  | cons y ys ih =>
    obtain ⟨f1, hf1⟩ := ih (fun x hx => h x (List.mem_cons_of_mem _ hx))
    have lift : ∀ (x : Node) (f : Nat) (o : Outcome), o ≠ .outOfFuel →
        inlineReferences w f x rootDoc baseDir = o → ∀ f3, f ≤ f3 →
        inlineReferences w f3 x rootDoc baseDir = o := by
      intro x f o ho hx f3 hle
      rw [inlineReferences_mono w rootDoc baseDir f f3 hle x (by rw [hx]; exact ho), hx]
    have hy : ∃ f2, (∃ r, inlineReferences w f2 y rootDoc baseDir = .ok r) ∨
        ∃ msg, inlineReferences w f2 y rootDoc baseDir = .err msg := by
      rcases h y (List.mem_cons_self _ _) with ⟨r, f2, e⟩ | ⟨msg, f2, e⟩
      · exact ⟨f2, Or.inl ⟨r, e⟩⟩
      · exact ⟨f2, Or.inr ⟨msg, e⟩⟩
    obtain ⟨f2, hf2⟩ := hy
    refine ⟨max f1 f2, ?_⟩
    intro x hx
    rcases List.mem_cons.1 hx with e | hmem
    · rw [e]
      rcases hf2 with ⟨r, e2⟩ | ⟨msg, e2⟩
      · exact Or.inl ⟨r, lift y f2 _ (by simp) e2 _ (le_max_right _ _)⟩
      · exact Or.inr ⟨msg, lift y f2 _ (by simp) e2 _ (le_max_right _ _)⟩
    · rcases hf1 x hmem with ⟨r, e2⟩ | ⟨msg, e2⟩
      · exact Or.inl ⟨r, lift x f1 _ (by simp) e2 _ (le_max_left _ _)⟩
      · exact Or.inr ⟨msg, lift x f1 _ (by simp) e2 _ (le_max_left _ _)⟩

theorem rangeSlice_ok_or_err (g : Node → Outcome) (xs : List Node)
    (h : ∀ x ∈ xs, (∃ r, g x = .ok r) ∨ ∃ msg, g x = .err msg) :
    ∀ (i : Nat) (acc : List Node),
      ((∃ out, rangeSlice g i xs acc = .ok out) ∧ ∀ x ∈ xs, ∃ r, g x = .ok r) ∨
      ∃ x ∈ xs, ∃ msg, g x = .err msg ∧ rangeSlice g i xs acc = .err msg := by
  induction xs with
  | nil => intro i acc; exact Or.inl ⟨⟨_, rfl⟩, by simp⟩
  | cons y ys ih =>
    intro i acc
    rcases h y (List.mem_cons_self _ _) with ⟨r, e⟩ | ⟨msg, e⟩
    · rcases ih (fun x hx => h x (List.mem_cons_of_mem _ hx)) (i + 1) (acc.set i r) with
        ⟨⟨out, ho⟩, hall⟩ | ⟨x, hx, msg, hm, hr⟩
      · refine Or.inl ⟨⟨out, by simp only [rangeSlice, e]; exact ho⟩, ?_⟩
        intro x hx
        rcases List.mem_cons.1 hx with e2 | hmem
        · exact ⟨r, by rw [e2]; exact e⟩
        · exact hall x hmem
      · exact Or.inr ⟨x, List.mem_cons_of_mem _ hx, msg, hm, by
          simp only [rangeSlice, e]; exact hr⟩
    · exact Or.inr ⟨y, List.mem_cons_self _ _, msg, e, by simp only [rangeSlice, e]⟩

theorem rangeMap_ok_or_err (g : Node → Outcome) (xs : List (String × Node))
    (h : ∀ kv ∈ xs, (∃ r, g kv.2 = .ok r) ∨ ∃ msg, g kv.2 = .err msg) :
    ∀ acc : Obj,
      ((∃ out, rangeMap g xs acc = .ok out) ∧ ∀ kv ∈ xs, ∃ r, g kv.2 = .ok r) ∨
      ∃ kv ∈ xs, ∃ msg, g kv.2 = .err msg ∧ rangeMap g xs acc = .err msg := by
  induction xs with
  | nil => intro acc; exact Or.inl ⟨⟨_, rfl⟩, by simp⟩
  | cons y ys ih =>
    obtain ⟨k, v⟩ := y
    intro acc
    rcases h (k, v) (List.mem_cons_self _ _) with ⟨r, e⟩ | ⟨msg, e⟩
    · have e1 : g v = .ok r := e
      rcases ih (fun x hx => h x (List.mem_cons_of_mem _ hx)) (mapSet acc k r) with
        ⟨⟨out, ho⟩, hall⟩ | ⟨x, hx, msg, hm, hr⟩
      · refine Or.inl ⟨⟨out, by simp only [rangeMap, e1]; exact ho⟩, ?_⟩
        intro x hx
        rcases List.mem_cons.1 hx with e2 | hmem
        · exact ⟨r, by rw [e2]; exact e⟩
        · exact hall x hmem
      · exact Or.inr ⟨x, List.mem_cons_of_mem _ hx, msg, hm, by
          simp only [rangeMap, e1]; exact hr⟩
    · have e1 : g v = .err msg := e
      exact Or.inr ⟨(k, v), List.mem_cons_self _ _, msg, e, by simp only [rangeMap, e1]⟩

theorem fail_fast_of_step (w : World) (rootDoc : Obj) (baseDir : String) (doc : Node)
    (children : List Node)
    (hstep : ∀ fuel : Nat,
      (∀ x ∈ children, (∃ r, inlineReferences w fuel x rootDoc baseDir = .ok r) ∨
        ∃ msg, inlineReferences w fuel x rootDoc baseDir = .err msg) →
      ((∃ out, inlineReferences w (fuel + 1) doc rootDoc baseDir = .ok out) ∧
        ∀ x ∈ children, ∃ r, inlineReferences w fuel x rootDoc baseDir = .ok r) ∨
      ∃ x ∈ children, ∃ msg, inlineReferences w fuel x rootDoc baseDir = .err msg ∧
        inlineReferences w (fuel + 1) doc rootDoc baseDir = .err msg)
    (hret : ∀ x ∈ children, Returns w rootDoc baseDir x) :
    Returns w rootDoc baseDir doc ∧
    ((∃ msg, FailsWith w rootDoc baseDir doc msg) ↔
      ∃ x ∈ children, ∃ msg, FailsWith w rootDoc baseDir x msg) ∧
    ∀ msg, FailsWith w rootDoc baseDir doc msg →
      (∃ x ∈ children, FailsWith w rootDoc baseDir x msg) ∧
      ∀ r, ¬ InlinesTo w rootDoc baseDir doc r := by
  obtain ⟨fuel, hfuel⟩ := exists_common_fuel_returns w rootDoc baseDir children hret
  rcases hstep fuel hfuel with ⟨⟨out, hout⟩, hall⟩ | ⟨x, hx, msg, hxm, hdm⟩
  · have noFail : ∀ msg, ¬ FailsWith w rootDoc baseDir doc msg := by
      rintro msg ⟨f2, e2⟩
      have := inlineReferences_outcome_unique w rootDoc baseDir doc _ _ _ _ hout (by simp)
        e2 (by simp)
      simp at this
    refine ⟨Or.inl ⟨out, fuel + 1, hout⟩, ⟨?_, ?_⟩, ?_⟩
    · rintro ⟨msg, hm⟩
      exact absurd hm (noFail msg)
    · rintro ⟨x, hx, msg, f2, e2⟩
      obtain ⟨r, hr⟩ := hall x hx
      have := inlineReferences_outcome_unique w rootDoc baseDir x _ _ _ _ hr (by simp)
        e2 (by simp)
      simp at this
    · intro msg hm
      exact absurd hm (noFail msg)
  · refine ⟨Or.inr ⟨msg, fuel + 1, hdm⟩, ⟨fun _ => ⟨x, hx, msg, fuel, hxm⟩,
      fun _ => ⟨msg, fuel + 1, hdm⟩⟩, ?_⟩
    rintro msg2 ⟨f2, e2⟩
    have hmm := inlineReferences_outcome_unique w rootDoc baseDir doc _ _ _ _ hdm (by simp)
      e2 (by simp)
    simp only [Outcome.err.injEq] at hmm
    refine ⟨⟨x, hx, fuel, by rw [← hmm]; exact hxm⟩, ?_⟩
    rintro r ⟨f3, e3⟩
    have := inlineReferences_outcome_unique w rootDoc baseDir doc _ _ _ _ hdm (by simp)
      e3 (by simp)
    simp at this

/-! ## Reference nodes and external files -/

theorem inlineReferences_ref (w : World) (fuel : Nat) (m : Obj) (p : String) (rootDoc : Obj)
    (baseDir : String) (hm : mapGet m "$ref" = some (.str p)) :
    inlineReferences w (fuel + 1) (.obj m) rootDoc baseDir =
      match resolveReference w p rootDoc baseDir with
      | .error e => .err e
      | .ok resolved => inlineReferences w fuel resolved rootDoc baseDir := by
  rw [inlineReferences]
  simp [isReference, hm]

theorem resolveReference_external (w : World) (path : String) (rootDoc : Obj)
    (baseDir : String) (hpre : hasPrefix path "#/" = false) :
    resolveReference w path rootDoc baseDir =
      match w.readFile (w.join baseDir path) with
      | .error e =>
        .error ("failed to read referenced file " ++ w.join baseDir path ++ ": " ++ e)
      | .ok content =>
        match w.unmarshal content with
        | .error e =>
          .error ("failed to parse referenced file " ++ w.join baseDir path ++ ": " ++ e)
        | .ok referencedDoc => .ok referencedDoc := by
  rw [resolveReference]
  simp [hpre]

theorem mentions_middle (a text b : String) : mentions (a ++ text ++ b) text := by
  unfold mentions
  simp only [String.data_append]
  exact ⟨a.data, b.data, rfl⟩

theorem read_message_ne_parse_message (a b c d : String) :
    "failed to read referenced file " ++ a ++ ": " ++ b
      ≠ "failed to parse referenced file " ++ c ++ ": " ++ d := by
  intro h
  have h2 := congrArg (fun s : String => s.data.get? 10) h
  simp [String.data_append] at h2

/-! ## Returned trees are well formed -/

theorem mapKeys_mapSet_nodup (m : Obj) (key : String) (value : Node)
    (h : (mapKeys m).Nodup) : (mapKeys (mapSet m key value)).Nodup := by
  induction m with
  | nil => simp [mapSet, mapKeys]
  | cons kv rest ih =>
    obtain ⟨k0, v0⟩ := kv
    simp only [mapKeys, List.map_cons, List.nodup_cons] at h
    by_cases hk : k0 = key
    · simp only [mapSet, hk, if_true, mapKeys, List.map_cons, List.nodup_cons]
      rw [← hk]; exact h
    · simp only [mapSet, hk, if_false, mapKeys, List.map_cons, List.nodup_cons]
      refine ⟨?_, ih h.2⟩
      intro hmem
      rcases mapKeys_mapSet_subset rest key value k0 hmem with e | e
      · exact hk e
      · exact h.1 e

theorem wfFields_mapSet (m : Obj) (key : String) (value : Node)
    (hm : wfFields m = true) (hv : value.wf = true) : wfFields (mapSet m key value) = true := by
  rw [wfFields_iff] at hm ⊢
  intro kv hmem
  rcases mem_mapSet _ _ _ _ hmem with h | h
  · rw [h]; exact hv
  · exact hm kv h

theorem rangeMap_wf (f : Node → Outcome) (xs : List (String × Node))
    (hf : ∀ kv ∈ xs, ∀ r, f kv.2 = .ok r → r.wf = true) :
    ∀ (acc : Obj) (out : Node), (mapKeys acc).Nodup → wfFields acc = true →
      rangeMap f xs acc = .ok out → out.wf = true := by
  induction xs with
  | nil =>
    intro acc out hnd hacc h
    simp only [rangeMap, Outcome.ok.injEq] at h
    rw [← h]
    simp only [Node.wf, Bool.and_eq_true, decide_eq_true_eq]
    exact ⟨hnd, hacc⟩
  | cons kv rest ih =>
    obtain ⟨k, v⟩ := kv
    intro acc out hnd hacc h
    simp only [rangeMap] at h
    cases hv : f v with
    | ok r =>
      rw [hv] at h
      exact ih (fun kv hkv => hf kv (List.mem_cons_of_mem _ hkv)) _ out
        (mapKeys_mapSet_nodup _ _ _ hnd)
        (wfFields_mapSet _ _ _ hacc (hf (k, v) (List.mem_cons_self _ _) r hv)) h
    | err e => simp [hv] at h
    | panic => simp [hv] at h
    | outOfFuel => simp [hv] at h

theorem rangeSlice_wf (f : Node → Outcome) (xs : List Node)
    (hf : ∀ x ∈ xs, ∀ r, f x = .ok r → r.wf = true) :
    ∀ (i : Nat) (acc : List Node) (out : Node), wfItems acc = true →
      rangeSlice f i xs acc = .ok out → out.wf = true := by
  induction xs with
  | nil =>
    intro i acc out hacc h
    simp only [rangeSlice, Outcome.ok.injEq] at h
    rw [← h]; simpa [Node.wf] using hacc
  | cons v rest ih =>
    intro i acc out hacc h
    simp only [rangeSlice] at h
    cases hv : f v with
    | ok r =>
      rw [hv] at h
      refine ih (fun x hx => hf x (List.mem_cons_of_mem _ hx)) _ _ out ?_ h
      rw [wfItems_iff] at hacc ⊢
      intro x hx
      rcases List.mem_or_eq_of_mem_set hx with h1 | h1
      · exact hacc x h1
      · rw [h1]; exact hf v (List.mem_cons_self _ _) r hv
    | err e => simp [hv] at h
    | panic => simp [hv] at h
    | outOfFuel => simp [hv] at h

theorem inlineReferences_wf (w : World) (rootDoc : Obj) (baseDir : String) (fuel : Nat) :
    ∀ (doc out : Node), inlineReferences w fuel doc rootDoc baseDir = .ok out →
      out.wf = true := by
  induction fuel with
  | zero => intro doc out h; simp [inlineReferences] at h
  | succ n ih =>
    intro doc out h
    cases doc with
    | null => simp [inlineReferences] at h; rw [← h]; rfl
    | bool b => simp [inlineReferences] at h; rw [← h]; rfl
    | num x => simp [inlineReferences] at h; rw [← h]; rfl
    | str s => simp [inlineReferences] at h; rw [← h]; rfl
    | arr items =>
      rw [inlineReferences] at h
      refine rangeSlice_wf _ items (fun x _ r hr => ih x r hr) 0 _ out ?_ h
      rw [wfItems_iff]
      intro x hx
      rw [(List.mem_replicate.1 hx).2]; rfl
    | obj fields =>
      rw [inlineReferences] at h
      by_cases hr : isReference fields = true
      · simp only [hr, if_true] at h
        split at h
        · rename_i refPath hget
          cases hres : resolveReference w refPath rootDoc baseDir with
          | error e => simp [hres] at h
          | ok resolved =>
            simp only [hres] at h
            exact ih _ _ h
        · simp at h
      · simp only [hr] at h
        exact rangeMap_wf _ fields (fun kv _ r hr => ih kv.2 r hr) [] out
          (by simp [mapKeys]) rfl h

/-! ## Termination over a root without references -/

theorem resolveReference_internal (w : World) (p : String) (rootDoc : Obj)
    (baseDir : String) (hp : hasPrefix p "#/" = true) :
    resolveReference w p rootDoc baseDir
      = walkParts p rootDoc (split (trimPrefix p "#/") '/') := by
  rw [resolveReference]
  simp [hp]

theorem walkParts_error (refPath : String) (parts : List String) :
    ∀ (root : Obj) (e : String), walkParts refPath root parts = .error e →
      e = "reference path not found: " ++ refPath := by
  induction parts with
  | nil => intro root e h; simp [walkParts] at h
  | cons s rest ih =>
    intro root e h
    cases hget : mapGet root s with
    | none =>
      simp only [walkParts, hget, Except.error.injEq] at h
      exact h.symm
    | some x =>
      cases x with
      | obj m => simp only [walkParts, hget] at h; exact ih m e h
      | null => simp [walkParts, hget] at h
      | bool b => simp [walkParts, hget] at h
      | num n => simp [walkParts, hget] at h
      | str t => simp [walkParts, hget] at h
      | arr items => simp [walkParts, hget] at h

theorem walkParts_sub (refPath : String) (parts : List String) :
    ∀ (root : Obj) (v : Node), hasRefFields root = false →
      walkParts refPath root parts = .ok v →
      v.hasRef = false ∧ v.depth ≤ depthFields root + 1 := by
  induction parts with
  | nil =>
    intro root v hroot h
    simp only [walkParts, Except.ok.injEq] at h
    rw [← h]
    exact ⟨by simpa [Node.hasRef] using hroot, by simp [Node.depth]⟩
  | cons s rest ih =>
    intro root v hroot h
    cases hget : mapGet root s with
    | none => simp [walkParts, hget] at h
    | some x =>
      have hmem := mem_of_mapGet root s x hget
      have hx : x.hasRef = false := ((hasRefFields_eq_false_iff root).1 hroot).2 _ hmem
      have hd : x.depth ≤ depthFields root := depth_le_depthFields root _ hmem
      cases x with
      | obj m =>
        simp only [walkParts, hget] at h
        have := ih m v (by simpa [Node.hasRef] using hx) h
        simp only [Node.depth] at hd
        exact ⟨this.1, by omega⟩
      | null =>
        simp only [walkParts, hget, Except.ok.injEq] at h
        rw [← h]; exact ⟨hx, by omega⟩
      | bool b =>
        simp only [walkParts, hget, Except.ok.injEq] at h
        rw [← h]; exact ⟨hx, by omega⟩
      | num n =>
        simp only [walkParts, hget, Except.ok.injEq] at h
        rw [← h]; exact ⟨hx, by omega⟩
      | str t =>
        simp only [walkParts, hget, Except.ok.injEq] at h
        rw [← h]; exact ⟨hx, by omega⟩
      | arr items =>
        simp only [walkParts, hget, Except.ok.injEq] at h
        rw [← h]; exact ⟨hx, by omega⟩

theorem inlineReferences_refFree_ok (w : World) (rootDoc : Obj) (baseDir : String)
    (fuel : Nat) :
    ∀ doc : Node, doc.hasRef = false → doc.depth < fuel →
      ∃ out, inlineReferences w fuel doc rootDoc baseDir = .ok out := by
  induction fuel with
  | zero => intro doc _ h; omega
  | succ n ih =>
    intro doc hr hd
    cases doc with
    | null => exact ⟨Node.null, by simp [inlineReferences]⟩
    | bool b => exact ⟨Node.bool b, by simp [inlineReferences]⟩
    | num x => exact ⟨Node.num x, by simp [inlineReferences]⟩
    | str s => exact ⟨Node.str s, by simp [inlineReferences]⟩
    | arr items =>
      rw [inlineReferences]
      simp only [Node.depth, Node.hasRef] at hd hr
      rw [hasRefItems_eq_false_iff] at hr
      have hall : ∀ x ∈ items, ∃ r, inlineReferences w n x rootDoc baseDir = .ok r :=
        fun x hx => ih x (hr x hx) (by have := depth_le_depthItems items x hx; omega)
      rcases rangeSlice_ok_or_err (fun item => inlineReferences w n item rootDoc baseDir)
        items (fun x hx => Or.inl (hall x hx)) 0 (List.replicate items.length .null) with
        ⟨hout, _⟩ | ⟨x, hx, msg, h1, _⟩
      · exact hout
      · obtain ⟨r, hr2⟩ := hall x hx
        rw [hr2] at h1
        simp at h1
    | obj fields =>
      rw [inlineReferences]
      simp only [Node.depth, Node.hasRef] at hd hr
      rw [hasRefFields_eq_false_iff] at hr
      have hnr : isReference fields = false := by
        simp [isReference, (mapGet_eq_none_iff _ _).2 hr.1]
      simp only [hnr]
      have hall : ∀ kv ∈ fields, ∃ r, inlineReferences w n kv.2 rootDoc baseDir = .ok r :=
        fun kv hkv => ih kv.2 (hr.2 kv hkv)
          (by have := depth_le_depthFields fields kv hkv; omega)
      rcases rangeMap_ok_or_err (fun value => inlineReferences w n value rootDoc baseDir)
        fields (fun kv hkv => Or.inl (hall kv hkv)) [] with ⟨hout, _⟩ | ⟨kv, hkv, msg, h1, _⟩
      · exact hout
      · obtain ⟨r, hr2⟩ := hall kv hkv
        have h3 : inlineReferences w n kv.2 rootDoc baseDir = .err msg := h1
        rw [hr2] at h3
        simp at h3

theorem refsInternalItems_iff (l : List Node) :
    refsInternalItems l = true ↔ ∀ x ∈ l, x.refsInternal = true := by
  induction l with
  | nil => simp [refsInternalItems]
  | cons x xs ih => simp [refsInternalItems, ih]

theorem refsInternalFields_iff (m : List (String × Node)) :
    refsInternalFields m = true ↔ ∀ kv ∈ m, kv.2.refsInternal = true := by
  induction m with
  | nil => simp [refsInternalFields]
  | cons kv rest ih =>
    obtain ⟨k, v⟩ := kv
    simp [refsInternalFields, ih]

theorem settled_cases (o : Outcome) (h : o.settled) :
    (∃ r, o = .ok r) ∨ ∃ msg, o = .err msg := by
  cases o with
  | ok v => exact Or.inl ⟨v, rfl⟩
  | err msg => exact Or.inr ⟨msg, rfl⟩
  | panic => exact absurd h (by simp [Outcome.settled])
  | outOfFuel => exact absurd h (by simp [Outcome.settled])

theorem inlineReferences_settled (w : World) (rootDoc : Obj) (baseDir : String)
    (hroot : hasRefFields rootDoc = false) (fuel : Nat) :
    ∀ doc : Node, doc.refsInternal = true →
      doc.depth + (depthFields rootDoc + 1) + 2 ≤ fuel →
      (inlineReferences w fuel doc rootDoc baseDir).settled := by
  induction fuel with
  | zero => intro doc _ h; omega
  | succ n ih =>
    intro doc hi hd
    cases doc with
    | null => simp [inlineReferences, Outcome.settled, Node.hasRef]
    | bool b => simp [inlineReferences, Outcome.settled, Node.hasRef]
    | num x => simp [inlineReferences, Outcome.settled, Node.hasRef]
    | str s => simp [inlineReferences, Outcome.settled, Node.hasRef]
    | arr items =>
      simp only [Node.depth, Node.refsInternal] at hd hi
      rw [refsInternalItems_iff] at hi
      have hall : ∀ x ∈ items, (inlineReferences w n x rootDoc baseDir).settled :=
        fun x hx => ih x (hi x hx) (by have := depth_le_depthItems items x hx; omega)
      rcases rangeSlice_ok_or_err (fun item => inlineReferences w n item rootDoc baseDir)
        items (fun x hx => settled_cases _ (hall x hx)) 0
        (List.replicate items.length .null) with ⟨⟨out, hout⟩, _⟩ | ⟨x, hx, msg, h1, h2⟩
      · have hrun : inlineReferences w (n + 1) (.arr items) rootDoc baseDir = .ok out := by
          rw [inlineReferences]; exact hout
        rw [hrun]
        exact inlineReferences_noRef w rootDoc baseDir _ _ out hrun
      · have hrun : inlineReferences w (n + 1) (.arr items) rootDoc baseDir = .err msg := by
          rw [inlineReferences]; exact h2
        rw [hrun]
        have := hall x hx
        rw [h1] at this
        exact this
    | obj fields =>
      simp only [Node.depth, Node.refsInternal, Bool.and_eq_true] at hd hi
      by_cases hr : isReference fields = true
      · have hsome : ∃ p, mapGet fields "$ref" = some (.str p) ∧ hasPrefix p "#/" = true := by
          have h1 := hi.1
          unfold refIsInternal at h1
          split at h1
          · rename_i hnone
            simp [isReference, hnone] at hr
          · rename_i p hp
            exact ⟨p, hp, h1⟩
          · simp at h1
        obtain ⟨p, hp, hpre⟩ := hsome
        rw [inlineReferences_ref w n fields p rootDoc baseDir hp,
          resolveReference_internal w p rootDoc baseDir hpre]
        cases hw : walkParts p rootDoc (split (trimPrefix p "#/") '/') with
        | error e =>
          simp only [Outcome.settled]
          exact ⟨p, walkParts_error _ _ _ _ hw⟩
        | ok v =>
          obtain ⟨hv, hdv⟩ := walkParts_sub _ _ _ _ hroot hw
          obtain ⟨out, hout⟩ := inlineReferences_refFree_ok w rootDoc baseDir n v hv
            (by omega)
          simp only [hout, Outcome.settled]
          exact inlineReferences_noRef w rootDoc baseDir _ _ out hout
      · rw [refsInternalFields_iff] at hi
        have hall : ∀ kv ∈ fields, (inlineReferences w n kv.2 rootDoc baseDir).settled :=
          fun kv hkv => ih kv.2 (hi.2 kv hkv)
            (by have := depth_le_depthFields fields kv hkv; omega)
        have hrw : inlineReferences w (n + 1) (.obj fields) rootDoc baseDir
            = rangeMap (fun value => inlineReferences w n value rootDoc baseDir) fields [] := by
          rw [inlineReferences]
          simp [hr]
        rcases rangeMap_ok_or_err (fun value => inlineReferences w n value rootDoc baseDir)
          fields (fun kv hkv => settled_cases _ (hall kv hkv)) [] with
          ⟨⟨out, hout⟩, _⟩ | ⟨kv, hkv, msg, h1, h2⟩
        · have hrun : inlineReferences w (n + 1) (.obj fields) rootDoc baseDir = .ok out := by
            rw [hrw]; exact hout
          rw [hrun]
          exact inlineReferences_noRef w rootDoc baseDir _ _ out hrun
        · rw [hrw, h2]
          have := hall kv hkv
          have h3 : inlineReferences w n kv.2 rootDoc baseDir = .err msg := h1
          rw [h3] at this
          exact this

/-! ## Fail-fast -/

/-- Fail-fast for children that return: for a sequence, and for a mapping without a `$ref`
key, whose children all return (a value or an error), the call returns; it returns an error
exactly when some child returns an error; and when it returns an error, that error is the
error of a child and no value is returned in its place. -/
theorem fail_fast_of_returning_children :
    (∀ (w : World) (rootDoc : Obj) (baseDir : String) (es : List Node),
      (∀ e ∈ es, Returns w rootDoc baseDir e) →
      Returns w rootDoc baseDir (.arr es) ∧
      ((∃ msg, FailsWith w rootDoc baseDir (.arr es) msg) ↔
        ∃ e ∈ es, ∃ msg, FailsWith w rootDoc baseDir e msg) ∧
      ∀ msg, FailsWith w rootDoc baseDir (.arr es) msg →
        (∃ e ∈ es, FailsWith w rootDoc baseDir e msg) ∧
        ∀ r, ¬ InlinesTo w rootDoc baseDir (.arr es) r) ∧
    (∀ (w : World) (rootDoc : Obj) (baseDir : String) (m : Obj),
      isReference m = false →
      (∀ kv ∈ m, Returns w rootDoc baseDir kv.2) →
      Returns w rootDoc baseDir (.obj m) ∧
      ((∃ msg, FailsWith w rootDoc baseDir (.obj m) msg) ↔
        ∃ kv ∈ m, ∃ msg, FailsWith w rootDoc baseDir kv.2 msg) ∧
      ∀ msg, FailsWith w rootDoc baseDir (.obj m) msg →
        (∃ kv ∈ m, FailsWith w rootDoc baseDir kv.2 msg) ∧
        ∀ r, ¬ InlinesTo w rootDoc baseDir (.obj m) r) := by
  constructor
  · intro w rootDoc baseDir es hret
    refine fail_fast_of_step w rootDoc baseDir (.arr es) es ?_ hret
    intro fuel hall
    rw [inlineReferences]
    exact rangeSlice_ok_or_err (fun item => inlineReferences w fuel item rootDoc baseDir)
      es hall 0 _
  · intro w rootDoc baseDir m hnr hret
    have hcore := fail_fast_of_step w rootDoc baseDir (.obj m) (m.map Prod.snd) (by
      intro fuel hall
      rw [inlineReferences]
      simp only [hnr]
      rcases rangeMap_ok_or_err (fun value => inlineReferences w fuel value rootDoc baseDir)
        m (fun kv hkv => hall kv.2 (List.mem_map_of_mem Prod.snd hkv)) [] with
        ⟨hout, hok⟩ | ⟨kv, hkv, msg, h1, h2⟩
      · refine Or.inl ⟨hout, ?_⟩
        intro x hx
        obtain ⟨kv, hkv, e⟩ := List.mem_map.1 hx
        rw [← e]; exact hok kv hkv
      · exact Or.inr ⟨kv.2, List.mem_map_of_mem Prod.snd hkv, msg, h1, h2⟩)
      (by
        intro x hx
        obtain ⟨kv, hkv, e⟩ := List.mem_map.1 hx
        rw [← e]; exact hret kv hkv)
    refine ⟨hcore.1, ⟨?_, ?_⟩, ?_⟩
    · intro h
      obtain ⟨x, hx, msg, hm⟩ := hcore.2.1.1 h
      obtain ⟨kv, hkv, e⟩ := List.mem_map.1 hx
      exact ⟨kv, hkv, msg, by rw [e]; exact hm⟩
    · rintro ⟨kv, hkv, msg, hm⟩
      exact hcore.2.1.2 ⟨kv.2, List.mem_map_of_mem Prod.snd hkv, msg, hm⟩
    · intro msg hm
      obtain ⟨⟨x, hx, hxm⟩, hno⟩ := hcore.2.2 msg hm
      obtain ⟨kv, hkv, e⟩ := List.mem_map.1 hx
      exact ⟨⟨kv, hkv, by rw [e]; exact hxm⟩, hno⟩

/-- The sequence `[1, {"$ref": "#/missing"}, 2]` under the root `{"a": 1, "b": 2}`: the
second element fails, so the sequence fails. -/
theorem fail_fast_of_returning_children_example :
    ∃ msg, FailsWith noFiles exPair "."
      (.arr [.num 1, .obj [("$ref", .str "#/missing")], .num 2]) msg :=
  (fail_fast_of_returning_children.1 noFiles exPair "."
    [.num 1, .obj [("$ref", .str "#/missing")], .num 2]
    (fun e he => by
      simp only [List.mem_cons, List.mem_singleton, List.not_mem_nil, or_false] at he
      rcases he with e1 | e1 | e1
      · exact Or.inl ⟨.num 1, 1, by rw [e1]; rfl⟩
      · exact Or.inr ⟨"reference path not found: #/missing", 1, by rw [e1]; rfl⟩
      · exact Or.inl ⟨.num 2, 1, by rw [e1]; rfl⟩)).2.1.2
    ⟨.obj [("$ref", .str "#/missing")], by simp,
      "reference path not found: #/missing", 1, rfl⟩

theorem inlineReferences_malformed (w : World) (fuel : Nat) (m : Obj) (v : Node)
    (rootDoc : Obj) (baseDir : String) (hm : mapGet m "$ref" = some v)
    (hv : ∀ s : String, v ≠ .str s) :
    inlineReferences w (fuel + 1) (.obj m) rootDoc baseDir = .panic := by
  rw [inlineReferences]
  simp only [isReference, hm, Option.isSome_some, if_true]
  split
  · rename_i refPath heq
    simp only [Option.some.injEq] at heq
    exact absurd heq (hv refPath)
  · rfl

/-! ## The claims -/

/-- C1 (no residual references): whenever `inlineReferences` returns a value without
error, for any node, root document, base directory and file-system content, that value
contains no mapping with a `$ref` key at any depth. -/
theorem no_residual_references (w : World) (fuel : Nat) (doc : Node) (rootDoc : Obj)
    (baseDir : String) (out : Node)
    (h : inlineReferences w fuel doc rootDoc baseDir = .ok out) : out.hasRef = false :=
  inlineReferences_noRef w rootDoc baseDir fuel doc out h

/-- C1 at the document `{"a": {"b": 5}, "c": {"$ref": "#/a/b"}}`, which has a reference. -/
theorem no_residual_references_witness :
    (Node.obj exInternal).hasRef = true ∧
    inlineReferences noFiles 3 (.obj exInternal) exInternal "."
      = .ok (.obj [("a", .obj [("b", .num 5)]), ("c", .num 5)]) ∧
    (Node.obj [("a", .obj [("b", .num 5)]), ("c", .num 5)]).hasRef = false :=
  ⟨by decide, rfl,
    no_residual_references noFiles 3 (.obj exInternal) exInternal "." _ rfl⟩

/-- C2 (identity on reference-free input): a node without a `$ref` key at any depth
(its mappings having distinct keys, as every Go map has) is returned as it is, for every
root document and base directory, as soon as the fuel exceeds the depth of the node. -/
theorem identity_on_reference_free (w : World) (doc : Node) (rootDoc : Obj)
    (baseDir : String) (fuel : Nat) (hr : doc.hasRef = false) (hw : doc.wf = true)
    (hf : doc.depth < fuel) : inlineReferences w fuel doc rootDoc baseDir = .ok doc :=
  inlineReferences_id w rootDoc baseDir fuel doc hf hr hw

/-- C2 at the document `{"a": [1, "x", {"k": true}], "b": null}`. -/
theorem identity_on_reference_free_witness :
    inlineReferences noFiles 4
        (.obj [("a", .arr [.num 1, .str "x", .obj [("k", .bool true)]]), ("b", .null)])
        exInternal "."
      = .ok (.obj [("a", .arr [.num 1, .str "x", .obj [("k", .bool true)]]), ("b", .null)]) :=
  identity_on_reference_free noFiles
    (.obj [("a", .arr [.num 1, .str "x", .obj [("k", .bool true)]]), ("b", .null)])
    exInternal "." 4 (by decide) (by decide) (by decide)

/-- C3 (internal resolution correctness): when the descent from the root through the
keys `s1, ..., sn` (`n ≥ 1`) succeeds, `resolveReference` on `#/s1/.../sn` returns the
value stored there, as it is; and inlining `{"a": {"b": 5}, "c": {"$ref": "#/a/b"}}`
yields `{"a": {"b": 5}, "c": 5}`. -/
theorem internal_resolution_correct :
    (∀ (w : World) (rootDoc : Obj) (baseDir : String) (segs : List String) (v : Node),
      segs ≠ [] → SlashFree segs → descend (.obj rootDoc) segs = some v →
      resolveReference w (refPathOf segs) rootDoc baseDir = .ok v) ∧
    (∀ (w : World) (baseDir : String) (fuel : Nat), 3 ≤ fuel →
      inlineReferences w fuel (.obj exInternal) exInternal baseDir
        = .ok (.obj [("a", .obj [("b", .num 5)]), ("c", .num 5)])) := by
  constructor
  · intro w rootDoc baseDir segs v hne hs hd
    rw [resolveReference_refPathOf w rootDoc baseDir segs hne hs]
    exact walkParts_of_descend _ segs rootDoc v hd
  · intro w baseDir fuel hle
    exact inlineReferences_ok_of_le w exInternal baseDir 3 fuel _ _ hle rfl

/-- C3 at the path `#/c` of `{"a": {"b": 5}, "c": {"$ref": "#/a/b"}}`: the reference node
stored there is returned with its reference in place. -/
theorem internal_resolution_correct_witness :
    resolveReference noFiles "#/c" exInternal "."
      = .ok (.obj [("$ref", .str "#/a/b")]) :=
  internal_resolution_correct.1 noFiles exInternal "." ["c"] _ (by decide)
    (by unfold SlashFree; decide) rfl

/-- C4 (a reference node is replaced, never merged): a mapping whose `$ref` key holds the
string `p` inlines to what the value resolved from `p` inlines to (or to the error of the
resolution), with the same root and base directory; so two reference nodes with the same
`$ref` string have the same outcome whatever their other keys; and
`{"x": {"$ref": "#/a", "description": "ignored"}, "a": 1}` inlines to `{"x": 1, "a": 1}`. -/
theorem reference_node_replaced :
    (∀ (w : World) (fuel : Nat) (m : Obj) (p : String) (rootDoc : Obj) (baseDir : String),
      mapGet m "$ref" = some (.str p) →
      inlineReferences w (fuel + 1) (.obj m) rootDoc baseDir =
        match resolveReference w p rootDoc baseDir with
        | .error e => .err e
        | .ok resolved => inlineReferences w fuel resolved rootDoc baseDir) ∧
    (∀ (w : World) (fuel : Nat) (m1 m2 : Obj) (p : String) (rootDoc : Obj)
      (baseDir : String),
      mapGet m1 "$ref" = some (.str p) → mapGet m2 "$ref" = some (.str p) →
      inlineReferences w fuel (.obj m1) rootDoc baseDir
        = inlineReferences w fuel (.obj m2) rootDoc baseDir) ∧
    (∀ (w : World) (baseDir : String) (fuel : Nat), 3 ≤ fuel →
      inlineReferences w fuel (.obj exSibling) exSibling baseDir
        = .ok (.obj [("x", .num 1), ("a", .num 1)])) := by
  have key : ∀ (w : World) (fuel : Nat) (m : Obj) (p : String) (rootDoc : Obj)
      (baseDir : String), mapGet m "$ref" = some (.str p) →
      inlineReferences w (fuel + 1) (.obj m) rootDoc baseDir =
        match resolveReference w p rootDoc baseDir with
        | .error e => .err e
        | .ok resolved => inlineReferences w fuel resolved rootDoc baseDir := by
    intro w fuel m p rootDoc baseDir hm
    rw [inlineReferences]
    simp [isReference, hm]
  refine ⟨key, ?_, ?_⟩
  · intro w fuel m1 m2 p rootDoc baseDir h1 h2
    cases fuel with
    | zero => simp [inlineReferences]
    | succ n => rw [key w n m1 p rootDoc baseDir h1, key w n m2 p rootDoc baseDir h2]
  · intro w baseDir fuel hle
    exact inlineReferences_ok_of_le w exSibling baseDir 3 fuel _ _ hle rfl

/-- C4 at two reference nodes to `#/a` with different siblings, under the root
`{"a": 1, "b": 2}`. -/
theorem reference_node_replaced_witness :
    inlineReferences noFiles 2
        (.obj [("$ref", .str "#/a"), ("description", .str "ignored")]) exPair "."
      = inlineReferences noFiles 2
        (.obj [("title", .num 7), ("$ref", .str "#/a")]) exPair "." :=
  reference_node_replaced.2.1 noFiles 2 _ _ "#/a" exPair "." rfl rfl

/-- C5 (a missing internal path fails): when the descent along `#/s1/.../sn` reaches a
mapping that does not have the next segment as a key, `resolveReference` returns the error
`reference path not found: ` followed by the whole reference path, and inlining the node
`{"$ref": path}` returns that same error; so does `{"$ref": "#/missing/path"}` with the
root `{}`. -/
theorem missing_internal_path_fails :
    (∀ (w : World) (rootDoc : Obj) (baseDir : String) (pre : List String) (s : String)
      (post : List String) (m : Obj),
      SlashFree (pre ++ s :: post) → descend (.obj rootDoc) pre = some (.obj m) →
      mapGet m s = none →
      resolveReference w (refPathOf (pre ++ s :: post)) rootDoc baseDir
          = .error ("reference path not found: " ++ refPathOf (pre ++ s :: post)) ∧
      mentions ("reference path not found: " ++ refPathOf (pre ++ s :: post))
          (refPathOf (pre ++ s :: post)) ∧
      ∀ fuel : Nat,
        inlineReferences w (fuel + 1) (.obj [("$ref", .str (refPathOf (pre ++ s :: post)))])
            rootDoc baseDir
          = .err ("reference path not found: " ++ refPathOf (pre ++ s :: post))) ∧
    (∀ (w : World) (baseDir : String) (fuel : Nat),
      inlineReferences w (fuel + 1) (.obj [("$ref", .str "#/missing/path")]) [] baseDir
        = .err "reference path not found: #/missing/path") := by
  constructor
  · intro w rootDoc baseDir pre s post m hs hd hm
    have hres : resolveReference w (refPathOf (pre ++ s :: post)) rootDoc baseDir
        = .error ("reference path not found: " ++ refPathOf (pre ++ s :: post)) := by
      rw [resolveReference_refPathOf w rootDoc baseDir _ (by simp) hs]
      exact walkParts_missing _ pre s post rootDoc m hd hm
    refine ⟨hres, mentions_append _ _, ?_⟩
    intro fuel
    rw [inlineReferences]
    simp [isReference, mapGet, hres]
  · intro w baseDir fuel
    rfl

/-- C5 at the path `#/a/x/y` under the root `{"a": {"b": 5}, "c": ...}`: the mapping at
`a` has no key `x`. -/
theorem missing_internal_path_fails_witness :
    resolveReference noFiles "#/a/x/y" exInternal "."
      = .error "reference path not found: #/a/x/y" :=
  (missing_internal_path_fails.1 noFiles exInternal "." ["a"] "x" ["y"]
    [("b", .num 5)] (by unfold SlashFree; decide) rfl rfl).1

/-- C6, the claim fails: under the root `{"a": 5}` the path `#/a/b` reaches the number 5
at `a` while the segment `b` remains, and `resolveReference` returns 5, not an error. -/
theorem non_mapping_intermediate_counterexample :
    descend (.obj [("a", .num 5)]) ["a"] = some (.num 5) ∧
    (Node.num 5).isObj = false ∧
    refPathOf (["a"] ++ ["b"]) = "#/a/b" ∧
    resolveReference noFiles "#/a/b" [("a", .num 5)] "." = .ok (.num 5) ∧
    ∀ msg : String, resolveReference noFiles "#/a/b" [("a", .num 5)] "." ≠ .error msg :=
  ⟨rfl, rfl, by decide, rfl, fun msg h => by
    have h2 : resolveReference noFiles "#/a/b" [("a", .num 5)] "." = .ok (.num 5) := rfl
    rw [h2] at h
    exact absurd h (by simp)⟩

/-- C6 as amended: when along `#/s1/.../sn` the value reached at `s1..si`, `i < n`, is not
a mapping while further segments remain, `resolveReference` does not fail: it returns that
value, and no error. -/
theorem non_mapping_intermediate_returns (w : World) (rootDoc : Obj) (baseDir : String)
    (pre post : List String) (v : Node) (hpost : post ≠ []) (hs : SlashFree (pre ++ post))
    (hd : descend (.obj rootDoc) pre = some v) (hv : v.isObj = false) :
    resolveReference w (refPathOf (pre ++ post)) rootDoc baseDir = .ok v ∧
    ∀ msg : String,
      resolveReference w (refPathOf (pre ++ post)) rootDoc baseDir ≠ .error msg := by
  have hres : resolveReference w (refPathOf (pre ++ post)) rootDoc baseDir = .ok v := by
    rw [resolveReference_refPathOf w rootDoc baseDir _ (by simp [hpost]) hs]
    exact walkParts_leaf _ pre post rootDoc v hd hv
  refine ⟨hres, ?_⟩
  intro msg h
  rw [hres] at h
  exact absurd h (by simp)

/-- C6 as amended, at the root `{"a": {"b": "leaf"}}` and the path `#/a/b/c/d`. -/
theorem non_mapping_intermediate_returns_witness :
    resolveReference noFiles "#/a/b/c/d" [("a", .obj [("b", .str "leaf")])] "."
      = .ok (.str "leaf") :=
  (non_mapping_intermediate_returns noFiles [("a", .obj [("b", .str "leaf")])] "."
    ["a", "b"] ["c", "d"] (.str "leaf") (by decide) (by unfold SlashFree; decide)
    rfl rfl).1

/-- C7 (leaf short-circuit): when the descent through `s1..si`, `i ≤ n`, succeeds and the
value there is not a mapping, `resolveReference` on `#/s1/.../sn` returns that value
without error, whatever the remaining segments are. -/
theorem leaf_short_circuit (w : World) (rootDoc : Obj) (baseDir : String)
    (pre post : List String) (v : Node) (hs : SlashFree (pre ++ post))
    (hd : descend (.obj rootDoc) pre = some v) (hv : v.isObj = false) :
    resolveReference w (refPathOf (pre ++ post)) rootDoc baseDir = .ok v := by
  have hne : pre ++ post ≠ [] := by
    intro h
    have hpre : pre = [] := (List.append_eq_nil.1 h).1
    rw [hpre] at hd
    simp only [descend, Option.some.injEq] at hd
    rw [← hd] at hv
    simp [Node.isObj] at hv
  rw [resolveReference_refPathOf w rootDoc baseDir _ hne hs]
  exact walkParts_leaf _ pre post rootDoc v hd hv

/-- C7 at the root `{"a": [1, 2]}` and the path `#/a/0/x`: the sequence at `a` is
returned and the segments `0` and `x` are ignored. -/
theorem leaf_short_circuit_witness :
    resolveReference noFiles "#/a/0/x" [("a", .arr [.num 1, .num 2])] "."
      = .ok (.arr [.num 1, .num 2]) :=
  leaf_short_circuit noFiles [("a", .arr [.num 1, .num 2])] "." ["a"] ["0", "x"]
    (.arr [.num 1, .num 2]) (by unfold SlashFree; decide) rfl rfl

/-- C8, what the code does: on a mapping whose `$ref` key holds a value that is not a
string, the unchecked type assertion `v["$ref"].(string)` panics; `inlineReferences`
returns neither an error nor a value. -/
theorem malformed_reference_panics (w : World) (fuel : Nat) (m : Obj) (v : Node)
    (rootDoc : Obj) (baseDir : String) (hm : mapGet m "$ref" = some v)
    (hv : ∀ s : String, v ≠ .str s) :
    inlineReferences w (fuel + 1) (.obj m) rootDoc baseDir = .panic ∧
    (∀ msg : String, inlineReferences w (fuel + 1) (.obj m) rootDoc baseDir ≠ .err msg) := by
  have hp : inlineReferences w (fuel + 1) (.obj m) rootDoc baseDir = .panic := by
    rw [inlineReferences]
    simp only [isReference, hm, Option.isSome_some, if_true]
    split
    · rename_i refPath heq
      simp only [Option.some.injEq] at heq
      exact absurd heq (hv refPath)
    · rfl
  refine ⟨hp, ?_⟩
  intro msg h
  rw [hp] at h
  exact absurd h (by simp)

/-- C8 at the document `{"$ref": 5}`. -/
theorem malformed_reference_panics_witness :
    inlineReferences noFiles 1 (.obj [("$ref", .num 5)]) [("$ref", .num 5)] "." = .panic :=
  (malformed_reference_panics noFiles 0 [("$ref", .num 5)] (.num 5) [("$ref", .num 5)] "."
    rfl (fun s h => by simp at h)).1

/-- C9 (sequence order preservation): when every element of a sequence inlines
successfully, the sequence inlines to a sequence of the same length whose element at each
index is what the element of the input at that index inlines to, and it returns nothing
else; and `[{"$ref": "#/a"}, {"$ref": "#/b"}]` with the root `{"a": 1, "b": 2}` yields
`[1, 2]`. -/
theorem sequence_order_preserved :
    (∀ (w : World) (rootDoc : Obj) (baseDir : String) (es : List Node),
      (∀ e ∈ es, ∃ r, InlinesTo w rootDoc baseDir e r) →
      ∃ rs : List Node, InlinesTo w rootDoc baseDir (.arr es) (.arr rs) ∧
        rs.length = es.length ∧
        (∀ (i : Nat) (h1 : i < es.length) (h2 : i < rs.length),
          InlinesTo w rootDoc baseDir (es.get ⟨i, h1⟩) (rs.get ⟨i, h2⟩)) ∧
        ∀ out : Node, InlinesTo w rootDoc baseDir (.arr es) out → out = .arr rs) ∧
    (∀ (w : World) (baseDir : String) (fuel : Nat), 3 ≤ fuel →
      inlineReferences w fuel exSeq exPair baseDir = .ok (.arr [.num 1, .num 2])) := by
  constructor
  · intro w rootDoc baseDir es hall
    obtain ⟨fuel, hfuel⟩ := exists_common_fuel w rootDoc baseDir es hall
    obtain ⟨rs, hrs⟩ := exists_forall₂_of_forall_mem
      (fun e r => inlineReferences w fuel e rootDoc baseDir = .ok r) es hfuel
    have hrun : inlineReferences w (fuel + 1) (.arr es) rootDoc baseDir = .ok (.arr rs) := by
      rw [inlineReferences]
      have := rangeSlice_ok_of_forall₂
        (fun item => inlineReferences w fuel item rootDoc baseDir) es rs hrs []
      simpa using this
    have hget := List.forall₂_iff_get.1 hrs
    refine ⟨rs, ⟨fuel + 1, hrun⟩, hget.1.symm, ?_, ?_⟩
    · intro i h1 h2
      exact ⟨fuel, hget.2 i h1 h2⟩
    · intro out hout
      exact InlinesTo_unique w rootDoc baseDir _ _ _ hout ⟨fuel + 1, hrun⟩
  · intro w baseDir fuel hle
    exact inlineReferences_ok_of_le w exPair baseDir 3 fuel _ _ hle rfl

/-- C9 at the sequence `[{"$ref": "#/b"}, 7, {"$ref": "#/a"}]` under the root
`{"a": 1, "b": 2}`: some sequence of length 3 is returned, element by element. -/
theorem sequence_order_preserved_witness :
    ∃ rs : List Node,
      InlinesTo noFiles exPair "."
        (.arr [.obj [("$ref", .str "#/b")], .num 7, .obj [("$ref", .str "#/a")]])
        (.arr rs) ∧ rs.length = 3 :=
  let ⟨rs, h1, h2, _⟩ := sequence_order_preserved.1 noFiles exPair "."
    [.obj [("$ref", .str "#/b")], .num 7, .obj [("$ref", .str "#/a")]]
    (fun e he => by
      simp only [List.mem_cons, List.mem_singleton, List.not_mem_nil, or_false] at he
      rcases he with e1 | e1 | e1
      · exact ⟨.num 2, 2, by rw [e1]; rfl⟩
      · exact ⟨.num 7, 1, by rw [e1]; rfl⟩
      · exact ⟨.num 1, 2, by rw [e1]; rfl⟩)
  ⟨rs, h1, h2⟩

/-- C10 (a non-reference mapping is rebuilt key by key): when a mapping has no `$ref`
key (its keys being distinct, as in every Go map) and every value inlines successfully,
the mapping inlines to a mapping with exactly the same keys in which each key holds what
the value of the input under that key inlines to, and it returns nothing else. -/
theorem mapping_rebuilt_key_by_key (w : World) (rootDoc : Obj) (baseDir : String) (m : Obj)
    (hnr : isReference m = false) (hnd : (mapKeys m).Nodup)
    (hall : ∀ (k : String) (v : Node), mapGet m k = some v →
      ∃ r, InlinesTo w rootDoc baseDir v r) :
    ∃ out : Obj, InlinesTo w rootDoc baseDir (.obj m) (.obj out) ∧
      (∀ k : String, k ∈ mapKeys out ↔ k ∈ mapKeys m) ∧
      (mapKeys out).Nodup ∧
      (∀ (k : String) (v : Node), mapGet m k = some v →
        ∃ r, mapGet out k = some r ∧ InlinesTo w rootDoc baseDir v r) ∧
      ∀ res : Node, InlinesTo w rootDoc baseDir (.obj m) res → res = .obj out := by
  have hvals : ∀ x ∈ m.map Prod.snd, ∃ r, InlinesTo w rootDoc baseDir x r := by
    intro x hx
    obtain ⟨kv, hkv, e⟩ := List.mem_map.1 hx
    rw [← e]
    exact hall kv.1 kv.2 (mapGet_of_mem m hnd kv hkv)
  obtain ⟨fuel, hfuel⟩ := exists_common_fuel w rootDoc baseDir _ hvals
  obtain ⟨rs, hrs⟩ := exists_forall₂_of_forall_mem
    (fun (kv : String × Node) r => inlineReferences w fuel kv.2 rootDoc baseDir = .ok r) m
    (fun kv hkv => hfuel kv.2 (List.mem_map_of_mem Prod.snd hkv))
  have hkeys := mapKeys_zipWith _ m rs hrs
  have hrun : inlineReferences w (fuel + 1) (.obj m) rootDoc baseDir
      = .ok (.obj (List.zipWith (fun kv r => (kv.1, r)) m rs)) := by
    rw [inlineReferences]
    simp only [hnr]
    have := rangeMap_ok_of_forall₂
      (fun value => inlineReferences w fuel value rootDoc baseDir) m rs hrs []
      (by simpa using hnd)
    simpa using this
  refine ⟨_, ⟨fuel + 1, hrun⟩, ?_, ?_, ?_, ?_⟩
  · intro k; rw [hkeys]
  · rw [hkeys]; exact hnd
  · intro k v hget
    obtain ⟨r, h1, h2⟩ := mapGet_zipWith
      (fun v r => inlineReferences w fuel v rootDoc baseDir = .ok r) m rs hrs k v hget
    exact ⟨r, h1, fuel, h2⟩
  · intro res hres
    exact InlinesTo_unique w rootDoc baseDir _ _ _ hres ⟨fuel + 1, hrun⟩

/-- C10 at the mapping `{"p": {"$ref": "#/a"}, "q": [true]}` under the root
`{"a": 1, "b": 2}`: it inlines to a mapping with the keys `p` and `q`. -/
theorem mapping_rebuilt_key_by_key_witness :
    ∃ out : Obj,
      InlinesTo noFiles exPair "."
        (.obj [("p", .obj [("$ref", .str "#/a")]), ("q", .arr [.bool true])]) (.obj out) ∧
      ∀ k : String, k ∈ mapKeys out ↔ k ∈ ["p", "q"] :=
  let ⟨out, h1, h2, _⟩ := mapping_rebuilt_key_by_key noFiles exPair "."
    [("p", .obj [("$ref", .str "#/a")]), ("q", .arr [.bool true])] rfl (by decide)
    (fun k v hget => by
      have hmem := mem_of_mapGet _ k v hget
      simp only [List.mem_cons, List.mem_singleton, List.not_mem_nil, or_false,
        Prod.mk.injEq] at hmem
      rcases hmem with ⟨_, e⟩ | ⟨_, e⟩
      · exact ⟨.num 1, 2, by rw [e]; rfl⟩
      · exact ⟨.arr [.bool true], 2, by rw [e]; rfl⟩)
  ⟨out, h1, h2⟩

/-- C11, what the code does: a sequence whose first element is a mapping with a `$ref`
value that is not a string panics, whatever its other elements are. For
`[{"$ref": 5}, {"$ref": "#/missing"}]` inside `{"items": [...]}` both elements terminate and
the second returns an error, yet the sequence, and the document, panic at every sufficient
fuel and never return an error. -/
theorem fail_fast_broken_by_panic :
    (∀ (w : World) (fuel : Nat) (m : Obj) (v : Node) (rest : List Node) (rootDoc : Obj)
      (baseDir : String),
      mapGet m "$ref" = some v → (∀ s : String, v ≠ .str s) →
      inlineReferences w (fuel + 2) (.arr (.obj m :: rest)) rootDoc baseDir = .panic) ∧
    (∀ (w : World) (baseDir : String),
      (∀ e ∈ exMalformedItems, Terminates w exMalformedDoc baseDir e) ∧
      (∃ e ∈ exMalformedItems, ∃ msg, FailsWith w exMalformedDoc baseDir e msg) ∧
      (∀ fuel : Nat, 2 ≤ fuel →
        inlineReferences w fuel (.arr exMalformedItems) exMalformedDoc baseDir = .panic) ∧
      (∀ msg, ¬ FailsWith w exMalformedDoc baseDir (.arr exMalformedItems) msg) ∧
      (∀ fuel : Nat, 3 ≤ fuel →
        inlineReferences w fuel (.obj exMalformedDoc) exMalformedDoc baseDir = .panic)) := by
  have gen : ∀ (w : World) (fuel : Nat) (m : Obj) (v : Node) (rest : List Node)
      (rootDoc : Obj) (baseDir : String),
      mapGet m "$ref" = some v → (∀ s : String, v ≠ .str s) →
      inlineReferences w (fuel + 2) (.arr (.obj m :: rest)) rootDoc baseDir = .panic := by
    intro w fuel m v rest rootDoc baseDir hm hv
    rw [inlineReferences]
    simp only [rangeSlice, inlineReferences_malformed w fuel m v rootDoc baseDir hm hv]
  have hseq : ∀ (w : World) (baseDir : String) (fuel : Nat), 2 ≤ fuel →
      inlineReferences w fuel (.arr exMalformedItems) exMalformedDoc baseDir = .panic := by
    intro w baseDir fuel hle
    obtain ⟨k, hk⟩ := Nat.exists_eq_add_of_le hle
    rw [hk, Nat.add_comm 2 k]
    exact gen w k [("$ref", .num 5)] (.num 5) _ exMalformedDoc baseDir rfl
      (fun s h => by simp at h)
  refine ⟨gen, ?_⟩
  intro w baseDir
  refine ⟨?_, ?_, hseq w baseDir, ?_, ?_⟩
  · intro e he
    simp only [exMalformedItems, List.mem_cons, List.mem_singleton, List.not_mem_nil,
      or_false] at he
    rcases he with e1 | e1
    · refine ⟨1, ?_⟩
      rw [e1, inlineReferences_malformed w 0 [("$ref", .num 5)] (.num 5) exMalformedDoc
        baseDir rfl (fun s h => by simp at h)]
      simp
    · refine ⟨1, ?_⟩
      have h2 : inlineReferences w 1 (.obj [("$ref", .str "#/missing")]) exMalformedDoc
          baseDir = .err "reference path not found: #/missing" := rfl
      rw [e1, h2]
      simp
  · exact ⟨.obj [("$ref", .str "#/missing")], by simp [exMalformedItems],
      "reference path not found: #/missing", 1, rfl⟩
  · rintro msg ⟨f, hf⟩
    have := inlineReferences_outcome_unique w exMalformedDoc baseDir _ _ _ _ _
      (hseq w baseDir 2 (le_refl _)) (by simp) hf (by simp)
    simp at this
  · intro fuel hle
    obtain ⟨k, hk⟩ := Nat.exists_eq_add_of_le hle
    have h1 := hseq w baseDir (k + 2) (by omega)
    rw [hk, Nat.add_comm 3 k, inlineReferences]
    simp only [exMalformedDoc, isReference, mapGet, rangeMap] at h1 ⊢
    simp [h1]

/-- C11 at the sequence `[{"$ref": 5}, {"$ref": "#/missing"}]`, with fuel 2. -/
theorem fail_fast_broken_by_panic_witness :
    inlineReferences noFiles 2 (.arr exMalformedItems) exMalformedDoc "." = .panic :=
  fail_fast_broken_by_panic.1 noFiles 0 [("$ref", .num 5)] (.num 5)
    [.obj [("$ref", .str "#/missing")]] exMalformedDoc "." rfl (fun s h => by simp at h)

/-- C12 (nested references use the original root and base directory): the value resolved
from a reference, internal or external, is inlined with the root document and the base
directory of the call itself, so a reference node found in it is resolved against them;
and with the root `{"inner": 7, "x": {"$ref": "ext.json"}}` and the file `ext.json` holding
`{"inner": 9, "y": {"$ref": "#/inner"}}`, `x` inlines to `{"inner": 9, "y": 7}`. -/
theorem nested_references_use_original_root :
    (∀ (w : World) (fuel : Nat) (m : Obj) (p : String) (rootDoc : Obj) (baseDir : String)
      (resolved : Node),
      mapGet m "$ref" = some (.str p) → resolveReference w p rootDoc baseDir = .ok resolved →
      inlineReferences w (fuel + 1) (.obj m) rootDoc baseDir
        = inlineReferences w fuel resolved rootDoc baseDir) ∧
    (∀ (w : World) (fuel : Nat) (m : Obj) (p : String) (rootDoc : Obj) (baseDir : String)
      (m2 : Obj) (q : String),
      mapGet m "$ref" = some (.str p) →
      resolveReference w p rootDoc baseDir = .ok (.obj m2) →
      mapGet m2 "$ref" = some (.str q) →
      inlineReferences w (fuel + 2) (.obj m) rootDoc baseDir =
        match resolveReference w q rootDoc baseDir with
        | .error e => .err e
        | .ok inner => inlineReferences w fuel inner rootDoc baseDir) ∧
    resolveReference exFiles "ext.json" exNested "specs" = .ok extDoc ∧
    (∀ fuel : Nat, 5 ≤ fuel →
      inlineReferences exFiles fuel (.obj exNested) exNested "specs"
        = .ok (.obj [("inner", .num 7), ("x", .obj [("inner", .num 9), ("y", .num 7)])])) := by
  refine ⟨?_, ?_, rfl, ?_⟩
  · intro w fuel m p rootDoc baseDir resolved hm hres
    rw [inlineReferences_ref w fuel m p rootDoc baseDir hm, hres]
  · intro w fuel m p rootDoc baseDir m2 q hm hres hm2
    rw [inlineReferences_ref w (fuel + 1) m p rootDoc baseDir hm, hres]
    exact inlineReferences_ref w fuel m2 q rootDoc baseDir hm2
  · intro fuel hle
    exact inlineReferences_ok_of_le exFiles exNested "specs" 5 fuel _ _ hle rfl

/-- C12 at the node `{"$ref": "ext.json"}` under the root
`{"inner": 7, "x": {"$ref": "ext.json"}}`: the decoded file is inlined with that root. -/
theorem nested_references_use_original_root_witness :
    inlineReferences exFiles 4 (.obj [("$ref", .str "ext.json")]) exNested "specs"
      = inlineReferences exFiles 3 extDoc exNested "specs" :=
  nested_references_use_original_root.1 exFiles 3 [("$ref", .str "ext.json")] "ext.json"
    exNested "specs" extDoc rfl rfl

/-- C13 (external reference inclusion): for a reference path that does not start with
`#/`, when the file at `join(baseDir, path)` is read and its bytes decode to a document
`d`, `resolveReference` returns `d`, and inlining `{"$ref": path}` is inlining `d`; and the
root `{"$ref": "shared.json"}` with `shared.json` holding `{"v": 1}` inlines to
`{"v": 1}`. -/
theorem external_reference_inclusion :
    (∀ (w : World) (path : String) (rootDoc : Obj) (baseDir content : String) (d : Node),
      hasPrefix path "#/" = false → w.readFile (w.join baseDir path) = .ok content →
      w.unmarshal content = .ok d →
      resolveReference w path rootDoc baseDir = .ok d ∧
      ∀ fuel : Nat,
        inlineReferences w (fuel + 1) (.obj [("$ref", .str path)]) rootDoc baseDir
          = inlineReferences w fuel d rootDoc baseDir) ∧
    (∀ fuel : Nat, 3 ≤ fuel →
      inlineReferences exFiles fuel (.obj exShared) exShared "specs"
        = .ok (.obj [("v", .num 1)])) := by
  constructor
  · intro w path rootDoc baseDir content d hpre hread hparse
    have hres : resolveReference w path rootDoc baseDir = .ok d := by
      rw [resolveReference_external w path rootDoc baseDir hpre]
      simp only [hread, hparse]
    refine ⟨hres, ?_⟩
    intro fuel
    rw [inlineReferences_ref w fuel [("$ref", .str path)] path rootDoc baseDir rfl, hres]
  · intro fuel hle
    exact inlineReferences_ok_of_le exFiles exShared "specs" 3 fuel _ _ hle rfl

/-- C13 at the path `shared.json` in the base directory `specs`. -/
theorem external_reference_inclusion_witness :
    resolveReference exFiles "shared.json" exShared "specs" = .ok (.obj [("v", .num 1)]) :=
  (external_reference_inclusion.1 exFiles "shared.json" exShared "specs" sharedText
    (.obj [("v", .num 1)]) (by decide) rfl rfl).1

/-- C14 (external failures are distinguished and carry the path): for a reference path
that does not start with `#/`, `resolveReference` returns the error
`failed to read referenced file <joined path>: <cause>` when the file cannot be read and
`failed to parse referenced file <joined path>: <cause>` when its bytes do not decode; the
message contains the joined path and the cause, and the two messages are never equal. -/
theorem external_failures_distinguished :
    (∀ (w : World) (path : String) (rootDoc : Obj) (baseDir cause : String),
      hasPrefix path "#/" = false → w.readFile (w.join baseDir path) = .error cause →
      resolveReference w path rootDoc baseDir
        = .error ("failed to read referenced file " ++ w.join baseDir path ++ ": " ++ cause) ∧
      mentions ("failed to read referenced file " ++ w.join baseDir path ++ ": " ++ cause)
        (w.join baseDir path) ∧
      mentions ("failed to read referenced file " ++ w.join baseDir path ++ ": " ++ cause)
        cause) ∧
    (∀ (w : World) (path : String) (rootDoc : Obj) (baseDir content cause : String),
      hasPrefix path "#/" = false → w.readFile (w.join baseDir path) = .ok content →
      w.unmarshal content = .error cause →
      resolveReference w path rootDoc baseDir
        = .error ("failed to parse referenced file " ++ w.join baseDir path ++ ": " ++ cause) ∧
      mentions ("failed to parse referenced file " ++ w.join baseDir path ++ ": " ++ cause)
        (w.join baseDir path) ∧
      mentions ("failed to parse referenced file " ++ w.join baseDir path ++ ": " ++ cause)
        cause) ∧
    (∀ a b c d : String,
      "failed to read referenced file " ++ a ++ ": " ++ b
        ≠ "failed to parse referenced file " ++ c ++ ": " ++ d) := by
  refine ⟨?_, ?_, read_message_ne_parse_message⟩
  · intro w path rootDoc baseDir cause hpre hread
    refine ⟨?_, ?_, mentions_append _ _⟩
    · rw [resolveReference_external w path rootDoc baseDir hpre]
      simp only [hread]
    · rw [String.append_assoc]
      exact mentions_middle _ _ _
  · intro w path rootDoc baseDir content cause hpre hread hparse
    refine ⟨?_, ?_, mentions_append _ _⟩
    · rw [resolveReference_external w path rootDoc baseDir hpre]
      simp only [hread, hparse]
    · rw [String.append_assoc]
      exact mentions_middle _ _ _

/-- C14 at the truncated file `specs/broken.json`: the parse failure is reported with the
joined path. -/
theorem external_failures_distinguished_witness :
    resolveReference exFiles "broken.json" exShared "specs"
      = .error ("failed to parse referenced file specs/broken.json: "
          ++ "unexpected end of JSON input") :=
  (external_failures_distinguished.2.1 exFiles "broken.json" exShared "specs" _
    "unexpected end of JSON input" (by decide) rfl rfl).1

/-- C15 (no cycle detection): for the root `{"a": {"$ref": "#/b"}, "b": {"$ref": "#/a"}}`,
and for the root `{"a": {"$ref": "#/a"}}`, inlining the root runs out of fuel whatever the
fuel is: it returns neither a value nor an error. -/
theorem no_cycle_detection :
    (∀ (w : World) (baseDir : String) (fuel : Nat),
      inlineReferences w fuel (.obj exCycle) exCycle baseDir = .outOfFuel) ∧
    (∀ (w : World) (baseDir : String) (fuel : Nat),
      inlineReferences w fuel (.obj exSelf) exSelf baseDir = .outOfFuel) := by
  constructor
  · intro w baseDir
    have hab : ∀ fuel : Nat,
        inlineReferences w fuel (.obj [("$ref", .str "#/b")]) exCycle baseDir = .outOfFuel ∧
        inlineReferences w fuel (.obj [("$ref", .str "#/a")]) exCycle baseDir
          = .outOfFuel := by
      intro fuel
      induction fuel with
      | zero => exact ⟨rfl, rfl⟩
      | succ n ih =>
        constructor
        · rw [inlineReferences_ref w n [("$ref", .str "#/b")] "#/b" exCycle baseDir rfl]
          exact ih.2
        · rw [inlineReferences_ref w n [("$ref", .str "#/a")] "#/a" exCycle baseDir rfl]
          exact ih.1
    intro fuel
    cases fuel with
    | zero => rfl
    | succ n =>
      rw [inlineReferences]
      have h1 := (hab n).1
      simp only [exCycle, isReference, mapGet, rangeMap] at h1 ⊢
      simp [h1]
  · intro w baseDir
    have ha : ∀ fuel : Nat,
        inlineReferences w fuel (.obj [("$ref", .str "#/a")]) exSelf baseDir
          = .outOfFuel := by
      intro fuel
      induction fuel with
      | zero => rfl
      | succ n ih =>
        rw [inlineReferences_ref w n [("$ref", .str "#/a")] "#/a" exSelf baseDir rfl]
        exact ih
    intro fuel
    cases fuel with
    | zero => rfl
    | succ n =>
      rw [inlineReferences]
      have h1 := ha n
      simp only [exSelf, isReference, mapGet, rangeMap] at h1 ⊢
      simp [h1]

/-- C16 (idempotence): when `inlineReferences` returns the tree `r`, inlining `r` again,
with any root document, base directory and files, returns `r` itself, as soon as the fuel
exceeds the depth of `r`. -/
theorem inline_idempotent (w : World) (fuel : Nat) (doc : Node) (rootDoc : Obj)
    (baseDir : String) (r : Node)
    (h : inlineReferences w fuel doc rootDoc baseDir = .ok r) :
    ∀ (w2 : World) (rootDoc2 : Obj) (baseDir2 : String) (fuel2 : Nat), r.depth < fuel2 →
      inlineReferences w2 fuel2 r rootDoc2 baseDir2 = .ok r := by
  intro w2 rootDoc2 baseDir2 fuel2 hlt
  exact inlineReferences_id w2 rootDoc2 baseDir2 fuel2 r hlt
    (inlineReferences_noRef w rootDoc baseDir fuel doc r h)
    (inlineReferences_wf w rootDoc baseDir fuel doc r h)

/-- C16 at the document `{"x": {"$ref": "#/a", "description": "ignored"}, "a": 1}`: its
inlining `{"x": 1, "a": 1}` is inlined to itself under another root and without files. -/
theorem inline_idempotent_witness :
    inlineReferences exFiles 3 (.obj exSibling) exSibling "specs"
      = .ok (.obj [("x", .num 1), ("a", .num 1)]) ∧
    inlineReferences noFiles 2 (.obj [("x", .num 1), ("a", .num 1)]) exCycle "."
      = .ok (.obj [("x", .num 1), ("a", .num 1)]) :=
  ⟨rfl, inline_idempotent exFiles 3 (.obj exSibling) exSibling "specs" _ rfl
    noFiles exCycle "." 2 (by decide)⟩

/-- C17 (termination over a reference-free root): when the root document has no `$ref` key
at any depth and every reference node of the node carries a string that starts with `#/`,
`inlineReferences` returns as soon as the fuel reaches the depth of the node plus the depth
of the root plus 2, and what it returns is a tree without references or a
`reference path not found` error. -/
theorem terminates_over_reference_free_root (w : World) (rootDoc : Obj) (baseDir : String)
    (doc : Node) (fuel : Nat) (hroot : (Node.obj rootDoc).hasRef = false)
    (hdoc : doc.refsInternal = true)
    (hfuel : doc.depth + (Node.obj rootDoc).depth + 2 ≤ fuel) :
    (∃ out, inlineReferences w fuel doc rootDoc baseDir = .ok out ∧ out.hasRef = false) ∨
    ∃ p : String,
      inlineReferences w fuel doc rootDoc baseDir
        = .err ("reference path not found: " ++ p) := by
  have h := inlineReferences_settled w rootDoc baseDir (by simpa [Node.hasRef] using hroot)
    fuel doc hdoc (by simpa [Node.depth] using hfuel)
  cases ho : inlineReferences w fuel doc rootDoc baseDir with
  | ok out =>
    rw [ho] at h
    exact Or.inl ⟨out, rfl, h⟩
  | err msg =>
    rw [ho] at h
    obtain ⟨p, hp⟩ := h
    exact Or.inr ⟨p, by rw [hp]⟩
  | panic => rw [ho] at h; exact absurd h (by simp [Outcome.settled])
  | outOfFuel => rw [ho] at h; exact absurd h (by simp [Outcome.settled])

/-- C17 at the sequence `[{"$ref": "#/a"}, {"$ref": "#/b"}]` under the root
`{"a": 1, "b": 2}`, with fuel 5. -/
theorem terminates_over_reference_free_root_witness :
    (∃ out, inlineReferences noFiles 5 exSeq exPair "." = .ok out ∧ out.hasRef = false) ∨
    ∃ p : String,
      inlineReferences noFiles 5 exSeq exPair "." = .err ("reference path not found: " ++ p) :=
  terminates_over_reference_free_root noFiles exPair "." exSeq 5 (by decide) (by decide)
    (by decide)

/-- C18 (empty segments): for the reference path `#/` the text after the marker splits
into the one segment `""`, so `resolveReference` looks up the key `""` in the root: it
returns `reference path not found: #/` when the root has no such key and the value under it
otherwise, not the root document. Every empty segment, from a leading, trailing or doubled
`/`, is kept by the split and looked up as the key `""`. -/
theorem empty_segment_is_looked_up :
    split (trimPrefix "#/" "#/") '/' = [""] ∧
    (∀ (w : World) (rootDoc : Obj) (baseDir : String), mapGet rootDoc "" = none →
      resolveReference w "#/" rootDoc baseDir = .error "reference path not found: #/") ∧
    (∀ (w : World) (rootDoc : Obj) (baseDir : String) (v : Node),
      mapGet rootDoc "" = some v → resolveReference w "#/" rootDoc baseDir = .ok v) ∧
    (∀ (w : World) (rootDoc : Obj) (baseDir : String) (segs : List String),
      segs ≠ [] → SlashFree segs →
      resolveReference w (refPathOf segs) rootDoc baseDir
        = walkParts (refPathOf segs) rootDoc segs) ∧
    split "/a" '/' = ["", "a"] ∧ split "a/" '/' = ["a", ""] ∧
    split "a//b" '/' = ["a", "", "b"] ∧
    (∀ (w : World) (baseDir : String),
      resolveReference w "#/a//b" [("a", .obj [("", .obj [("b", .num 3)])])] baseDir
        = .ok (.num 3)) ∧
    (∀ (w : World) (baseDir : String),
      resolveReference w "#/a//b" [("a", .obj [("b", .num 3)])] baseDir
        = .error "reference path not found: #/a//b") := by
  have hwalk : ∀ (w : World) (rootDoc : Obj) (baseDir : String),
      resolveReference w "#/" rootDoc baseDir = walkParts "#/" rootDoc [""] :=
    fun _ _ _ => rfl
  refine ⟨by decide, ?_, ?_, ?_, by decide, by decide, by decide, fun _ _ => rfl,
    fun _ _ => rfl⟩
  · intro w rootDoc baseDir hnone
    rw [hwalk, walkParts, hnone]
    rfl
  · intro w rootDoc baseDir v hsome
    rw [hwalk, walkParts, hsome]
    cases v <;> simp [walkParts]
  · intro w rootDoc baseDir segs hne hs
    exact resolveReference_refPathOf w rootDoc baseDir segs hne hs

/-- C18 at the segments `["a", "", "b"]`, the path `#/a//b`: the doubled `/` gives the
key `""`. -/
theorem empty_segment_is_looked_up_witness :
    refPathOf ["a", "", "b"] = "#/a//b" ∧
    resolveReference noFiles "#/a//b" exPair "."
      = walkParts "#/a//b" exPair ["a", "", "b"] :=
  ⟨by decide, empty_segment_is_looked_up.2.2.2.1 noFiles exPair "." ["a", "", "b"]
    (by decide) (by unfold SlashFree; decide)⟩

end Inline
